import Mathlib

/-!
go-genalg: a genetic string search

A shallow embedding of `main.go` and a verification of its specification.

Modelling conventions.

* A Go `string` / `[]byte` is a `List Nat` of byte values; a conversion to `byte`
  is an explicit `% 256`.
* `float64` values are exact rationals: the match counter of `score` is a whole
  number far below `2 ^ 53`, and the quotient of `score` is taken without rounding.
  The values NaN and infinity of a mutation rate are left out.  Where a property turns
  on the rounding of that quotient, `roundFloat64` gives the `float64` itself
  (`scoreFloat64`); for targets shorter than `2 ^ 53` bytes the rounded score is 1 or 0
  exactly when the quotient is.
* The global random source is a stream of draws; every call of `rand.Intn` or
  `rand.Float64` consumes the head of the stream, and any value the call may return
  is the result for some draw.
* A run-time panic (index out of range) is `none`.
* `for i := range s` over a string visits the byte index of the first byte of each
  UTF-8 encoded code point, as the Go language defines it.
* `sort.Sort` is library code.  The loop of `main` takes it as a parameter: any
  procedure that permutes the pool and leaves it ordered by `Less`.  The rank step
  itself is also run as `sortSort`, a comparison sort that works through the methods
  `Len`, `Less` and `Swap` of the source, and `sortSort` is one such procedure.
-/

namespace GenAlg

/-! ## Types and package-level declarations -/

/-- The package constant `populationSize`. -/
def populationSize : Nat := 25

/-- Go `type genotype string`: a sequence of bytes. -/
abbrev genotype := List Nat

/-- Go `type pool []genotype`. -/
abbrev pool := List genotype

/-- The package variables `input`, `inputLen` and `mutationRate`. -/
structure Globals where
  input : List Nat
  inputLen : ℚ
  mutationRate : ℚ
  deriving DecidableEq

/-- Go `init`: `i` and `m` are the values of the flags `-i` and `-m`.  The short
variable declaration `populationSize := len(input)` introduces a variable local to
`init`; it feeds `inputLen` and leaves the package constant untouched. -/
def init (i : List Nat) (m : ℚ) : Except String Globals :=
  if i.length = 0 then
    Except.error "expected input string"
  else
    let populationSize := i.length
    Except.ok { input := i, inputLen := (populationSize : ℚ), mutationRate := m }

/-! ## The random source -/

/-- One draw of the global generator: it fixes what the next call returns, whichever
call that is.  `rand.Intn(n)` returns `int % n`, and `rand.Float64()` returns the
fraction `(num % (den + 1)) / (den + 1)`, so that every value of `[0, n)` and every
rational of `[0, 1)` can be drawn. -/
structure Draw where
  int : Nat
  num : Nat
  den : Nat

/-- The stream of draws of the global generator. -/
abbrev Rng := Nat → Draw

/-- The stream after one draw has been consumed. -/
def Rng.tail (r : Rng) : Rng := fun n => r (n + 1)

/-- The stream after `k` draws have been consumed. -/
def Rng.drop (r : Rng) (k : Nat) : Rng := fun n => r (n + k)

/-- Go `rand.Intn(n)` for `n > 0`: a value in `[0, n)`. -/
def randIntn (n : Nat) (r : Rng) : Nat × Rng := ((r 0).int % n, r.tail)

/-- Go `rand.Float64()`: a value in `[0, 1)`. -/
def randFloat64 (r : Rng) : ℚ × Rng :=
  ((((r 0).num % ((r 0).den + 1) : Nat) : ℚ) / ((((r 0).den + 1 : Nat)) : ℚ), r.tail)

/-- Go `randASCII`: `byte(rand.Intn(123-32) + 32)`. -/
def randASCII (r : Rng) : Nat × Rng :=
  let d := randIntn (123 - 32) r
  ((d.1 + 32) % 256, d.2)

/-- The constant `.2` of the crossover test as a `float64`: the double nearest to 0.2,
`3602879701896397 / 2 ^ 54`. -/
def crossoverThreshold : ℚ := 3602879701896397 / 18014398509481984

/-! ## Ranging over a string -/

/-- A UTF-8 continuation byte, `0x80 ≤ b ≤ 0xBF`. -/
def isCont (b : Nat) : Bool := decide (0x80 ≤ b) && decide (b ≤ 0xBF)

/-- Number of bytes taken by the code point at the head of a string, as decoded by a
`range` loop: an invalid or truncated encoding takes one byte. -/
def runeWidth : List Nat → Nat
  | [] => 1
  | b0 :: rest =>
    if b0 < 0x80 then 1
    else if 0xC0 ≤ b0 ∧ b0 < 0xE0 then
      match rest with
      | b1 :: _ =>
        if isCont b1 = true ∧ 0x7F < (b0 % 32) * 64 + b1 % 64 then 2 else 1
      | _ => 1
    else if 0xE0 ≤ b0 ∧ b0 < 0xF0 then
      match rest with
      | b1 :: b2 :: _ =>
        let c := (b0 % 16) * 4096 + (b1 % 64) * 64 + b2 % 64
        if isCont b1 = true ∧ isCont b2 = true ∧ 0x7FF < c ∧ ¬ (0xD800 ≤ c ∧ c ≤ 0xDFFF)
        then 3 else 1
      | _ => 1
    else if 0xF0 ≤ b0 ∧ b0 < 0xF8 then
      match rest with
      | b1 :: b2 :: b3 :: _ =>
        let c := (b0 % 8) * 262144 + (b1 % 64) * 4096 + (b2 % 64) * 64 + b3 % 64
        if isCont b1 = true ∧ isCont b2 = true ∧ isCont b3 = true ∧ 0xFFFF < c ∧ c ≤ 0x10FFFF
        then 4 else 1
      | _ => 1
    else 1

/-- Indices visited by `for i := range s` on the rest of a string: `skip` bytes of
the code point in progress are still to be passed over and `k` is the index of the
head of the rest. -/
def rangeFrom : Nat → Nat → List Nat → List Nat
  | _, _, [] => []
  | 0, k, b :: rest => k :: rangeFrom (runeWidth (b :: rest) - 1) (k + 1) rest
  | skip + 1, k, _ :: rest => rangeFrom skip (k + 1) rest

/-- Indices visited by `for i := range s` on the string `s`. -/
def rangeIndices (s : List Nat) : List Nat := rangeFrom 0 0 s

/-! ## Genotype methods -/

/-- The loop of `score` over the indices still to visit; `f` is the counter. -/
def scoreLoop (input : List Nat) (g : genotype) : List Nat → Nat → Option Nat
  | [], f => some f
  | i :: is, f =>
    match g[i]?, input[i]? with
    | some a, some b => scoreLoop input g is (if a = b then f + 1 else f)
    | _, _ => none

/-- Go `genotype.score`: the counter divided by `inputLen`. -/
def score (G : Globals) (g : genotype) : Option ℚ :=
  (scoreLoop G.input g (rangeIndices g) 0).map (fun f => (f : ℚ) / G.inputLen)

/-- The loop of `matches` over the indices still to visit; `b` is the buffer. -/
def matchesLoop (input : List Nat) (g : genotype) : List Nat → List Nat → Option (List Nat)
  | [], b => some b
  | i :: is, b =>
    match g[i]?, input[i]? with
    | some x, some y => matchesLoop input g is (b.set i (if x = y then 124 else 32))
    | _, _ => none

/-- Go `genotype.matches` (`matches` is a reserved word here): the buffer starts as
`len(g)` zero bytes. -/
def matchesOf (G : Globals) (g : genotype) : Option (List Nat) :=
  matchesLoop G.input g (rangeIndices g) (List.replicate g.length 0)

/-! ## Pool methods -/

/-- Go `pool.Len`. -/
def Len (p : pool) : Nat := p.length

/-- Go `pool.Swap`. -/
def Swap (p : pool) (i j : Nat) : Option pool :=
  match p[i]?, p[j]? with
  | some a, some b => some ((p.set i b).set j a)
  | _, _ => none

/-- Go `pool.Less`. -/
def Less (G : Globals) (p : pool) (i j : Nat) : Option Bool :=
  match p[i]?, p[j]? with
  | some a, some b =>
    match score G a, score G b with
    | some x, some y => some (decide (x < y))
    | _, _ => none
  | _, _ => none

/-- The contract of `sort.Sort` on a pool: the result is a rearrangement of the
argument, and when every `Less` can be evaluated no later element is less than an
earlier one. -/
structure Sorter (G : Globals) where
  sort : pool → pool
  perm : ∀ p, List.Perm (sort p) p
  sorted : ∀ p, (∀ g ∈ p, (score G g).isSome = true) →
    ∀ i j, i < j → j < (sort p).length → Less G (sort p) j i = some false

/-! ## populate -/

/-- The inner loop of `populate`: `n` more bytes are appended to `str`. -/
def randomStr : Nat → List Nat → Rng → List Nat × Rng
  | 0, str, r => (str, r)
  | n + 1, str, r =>
    let d := randASCII r
    randomStr n (str ++ [d.1]) d.2

/-- The outer loop of `populate` over the indices still to visit. -/
def populateLoop (strSize : Nat) : List Nat → pool → Rng → pool × Rng
  | [], p, r => (p, r)
  | i :: is, p, r =>
    let d := randomStr strSize [] r
    populateLoop strSize is (p.set i d.1) d.2

/-- Go `populate`. -/
def populate (populationSize strSize : Nat) (r : Rng) : pool × Rng :=
  populateLoop strSize (List.range populationSize) (List.replicate populationSize []) r

/-! ## main -/

/-- One record written by the report step of `main`. -/
structure Report where
  generation : Nat
  target : List Nat
  diff : List Nat
  fittest : genotype
  score : ℚ

/-- The variables of `main` together with the random source and the reports written
so far. -/
structure State where
  population : pool
  generation : Nat
  fittest : genotype
  rng : Rng
  out : List Report

/-- How one pass of the `for` loop of `main` ends: at the `break`, or at the end of
the body with the loop going round again. -/
inductive Outcome where
  | done (s : State)
  | again (s : State)

/-- The loop over the positions of `p1` that builds one child: crossover draw, then
mutation draw. -/
def childLoop (G : Globals) (p1 p2 : genotype) :
    List Nat → List Nat → Rng → Option (List Nat × Rng)
  | [], child, r => some (child, r)
  | i :: is, child, r =>
    let c := randFloat64 r
    match (if c.1 > crossoverThreshold then p1[i]? else p2[i]?) with
    | none => none
    | some b =>
      let m := randFloat64 c.2
      if m.1 < G.mutationRate then
        let a := randASCII m.2
        childLoop G p1 p2 is ((child.set i b).set i a.1) a.2
      else
        childLoop G p1 p2 is (child.set i b) m.2

/-- One child of parents `p1` and `p2`: the buffer starts as `len(p1)` zero bytes. -/
def makeChild (G : Globals) (p1 p2 : genotype) (r : Rng) : Option (genotype × Rng) :=
  childLoop G p1 p2 (rangeIndices p1) (List.replicate p1.length 0) r

/-- The reproduction loop `for i := 0; i < populationSize; i++` over the indices
still to visit. -/
def childrenLoop (G : Globals) (population : pool) (best : genotype) :
    List Nat → pool → Rng → Option (pool × Rng)
  | [], children, r => some (children, r)
  | i :: is, children, r =>
    let d := randIntn populationSize r
    match population[d.1]? with
    | none => none
    | some p2 =>
      match makeChild G best p2 d.2 with
      | none => none
      | some (child, r1) =>
        if i < children.length then
          childrenLoop G population best is (children.set i child) r1
        else none

/-- The reproduction step: `children := make(pool, populationSize)` and its loop. -/
def reproduce (G : Globals) (population : pool) (best : genotype) (r : Rng) :
    Option (pool × Rng) :=
  childrenLoop G population best (List.range populationSize)
    (List.replicate populationSize []) r

/-- The statements of `main` before the loop. -/
def mainStart (G : Globals) (r : Rng) : Option State :=
  let d := populate populationSize G.input.length r
  match d.1[0]? with
  | none => none
  | some f => some { population := d.1, generation := 1, fittest := f, rng := d.2, out := [] }

/-- The report step: taken when `generation%10 == 0 || found`. -/
def report (G : Globals) (generation : Nat) (fittest : genotype) (found : Bool)
    (out : List Report) : Option (List Report) :=
  if generation % 10 = 0 ∨ found = true then
    match matchesOf G fittest, score G fittest with
    | some d, some sc =>
      some (out ++ [{ generation := generation, target := G.input, diff := d,
                      fittest := fittest, score := sc }])
    | _, _ => none
  else some out

/-- One pass of the `for` loop of `main`.  Sorting two or more genotypes evaluates
the score of each of them. -/
def loopBody (G : Globals) (srt : Sorter G) (s : State) : Option Outcome :=
  if 2 ≤ s.population.length ∧ ¬ (∀ g ∈ s.population, (score G g).isSome = true) then none
  else
    let population := srt.sort s.population
    match population.getLast? with
    | none => none
    | some best =>
      let found := decide (best = G.input)
      match report G s.generation best found s.out with
      | none => none
      | some out =>
        if found = true then
          some (Outcome.done { population := population, generation := s.generation,
                               fittest := best, rng := s.rng, out := out })
        else
          match reproduce G population best s.rng with
          | none => none
          | some (children, r) =>
            some (Outcome.again { population := children, generation := s.generation + 1,
                                  fittest := best, rng := r, out := out })

/-- The states at the head of the loop in some run of `main` with globals `G`. -/
inductive Reachable (G : Globals) (srt : Sorter G) : State → Prop where
  | start (r : Rng) (s : State) : mainStart G r = some s → Reachable G srt s
  | pass (s t : State) : Reachable G srt s → loopBody G srt s = some (Outcome.again t) →
      Reachable G srt t

/-- The state at the head of the loop after `n` complete passes, if the run gets
that far. -/
def afterPasses (G : Globals) (srt : Sorter G) (r : Rng) : Nat → Option State
  | 0 => mainStart G r
  | n + 1 =>
    match afterPasses G srt r n with
    | none => none
    | some s =>
      match loopBody G srt s with
      | some (Outcome.again t) => some t
      | _ => none

/-- A genotype of the length of the target made of bytes of the range of
`randASCII`. -/
def GoodGenotype (G : Globals) (g : genotype) : Prop :=
  g.length = G.input.length ∧ ∀ b ∈ g, 32 ≤ b ∧ b ≤ 122

/-- The shape of every population of a run: `populationSize` good genotypes. -/
def GoodPool (G : Globals) (p : pool) : Prop :=
  p.length = populationSize ∧ ∀ g ∈ p, GoodGenotype G g

/-- The key by which the reference sorter ranks a genotype. -/
def rankKey (G : Globals) (g : genotype) : ℚ := (score G g).getD 0

/-- A reference sorter, insertion sort by score: one procedure that meets the contract
of `sort.Sort`. -/
def insertionSorter (G : Globals) : Sorter G where
  sort := List.insertionSort (fun a b => rankKey G a ≤ rankKey G b)
  perm := fun p => List.perm_insertionSort _ p
  sorted := by
    intro p hs i j hij hj
    haveI : IsTotal genotype (fun a b => rankKey G a ≤ rankKey G b) :=
      ⟨fun a b => le_total _ _⟩
    haveI : IsTrans genotype (fun a b => rankKey G a ≤ rankKey G b) :=
      ⟨fun a b c => le_trans⟩
    have hsorted := List.sorted_insertionSort (fun a b => rankKey G a ≤ rankKey G b) p
    have hi : i < (List.insertionSort (fun a b => rankKey G a ≤ rankKey G b) p).length := by
      omega
    have hle := List.pairwise_iff_getElem.mp hsorted i j hi hj hij
    have hmi := (List.perm_insertionSort (fun a b => rankKey G a ≤ rankKey G b) p).mem_iff.mp
      (List.getElem_mem hi)
    have hmj := (List.perm_insertionSort (fun a b => rankKey G a ≤ rankKey G b) p).mem_iff.mp
      (List.getElem_mem hj)
    obtain ⟨x, hx⟩ := Option.isSome_iff_exists.mp (hs _ hmi)
    obtain ⟨y, hy⟩ := Option.isSome_iff_exists.mp (hs _ hmj)
    have hkx : rankKey G _ = x := congrArg (fun o => Option.getD o 0) hx
    have hky : rankKey G _ = y := congrArg (fun o => Option.getD o 0) hy
    rw [hkx, hky] at hle
    simp only [Less, List.getElem?_eq_getElem hi, List.getElem?_eq_getElem hj, hx, hy]
    simpa using hle

/-- The byte that one turn of the loop over the positions of `p1` leaves at position
`k` when the turn starts on the stream `r`: the crossover draw is the first draw, the
mutation draw the second, and the draw of `randASCII`, when it is made, the third. -/
def positionByte (G : Globals) (p1 p2 : genotype) (k : Nat) (r : Rng) : Option Nat :=
  if (randFloat64 (r.drop 1)).1 < G.mutationRate then some (randASCII (r.drop 2)).1
  else if (randFloat64 r).1 > crossoverThreshold then p1[k]? else p2[k]?

/-! ## The draws of the reproduction loop -/

/-- The random source after one turn of the loop over the positions of `p1` that
started on `r`: the turn makes the crossover draw, the mutation draw and, when the
mutation draw is below `mutationRate`, the draw of `randASCII`. -/
def turnEnd (G : Globals) (r : Rng) : Rng :=
  if (randFloat64 (r.drop 1)).1 < G.mutationRate then r.drop 3 else r.drop 2

/-- The random source at the start of the turn for position `k` of a child whose turn
for position 0 starts on `r`. -/
def positionStream (G : Globals) : Nat → Rng → Rng
  | 0, r => r
  | k + 1, r => positionStream G k (turnEnd G r)

/-- The random source after one turn of the reproduction loop that started on `r`: the
draw of `rand.Intn(populationSize)` that picks the second parent, then the turns for
the `len` positions of the child. -/
def childEnd (G : Globals) (len : Nat) (r : Rng) : Rng :=
  positionStream G len (r.drop 1)

/-- The random source at the start of the turn of the reproduction loop that builds
child `j`, when the loop starts on `r`. -/
def childStream (G : Globals) (len : Nat) : Nat → Rng → Rng
  | 0, r => r
  | j + 1, r => childStream G len j (childEnd G len r)

/-! ## The rank procedure -/

/-- Modelled from the spec: the inner loop of the procedure `sort.Sort`, which `main`
calls on the population (`sort.Sort(population)`) and whose body is library code, not
part of `main.go`.  The element at index `j` sinks towards the front: while `j > 0` and
`Less(j, j-1)` holds, `Swap(j, j-1)` is called and `j` decreases. -/
def sortInner (G : Globals) : Nat → pool → Option pool
  | 0, p => some p
  | j + 1, p =>
    match Less G p (j + 1) j with
    | none => none
    | some false => some p
    | some true =>
      match Swap p (j + 1) j with
      | none => none
      | some q => sortInner G j q

/-- Modelled from the spec: the outer loop of the procedure `sort.Sort` over the
indices still to visit, each of which is sunk by the inner loop. -/
def sortOuter (G : Globals) : List Nat → pool → Option pool
  | [], p => some p
  | i :: is, p =>
    match sortInner G i p with
    | none => none
    | some q => sortOuter G is q

/-- Modelled from the spec: the library procedure `sort.Sort`, which `main` calls on
the population (`sort.Sort(population)`) and whose body is not part of `main.go`.  The
specification asks for a comparison sort, ascending by score, that promises no order
among ties; it is given here as the insertion sort of the `sort` package, which reads
the pool through the methods `Len` and `Less` of the source and rearranges it through
`Swap` alone: for `i` from 1 to `Len() - 1`, the element at `i` is sunk by the inner
loop.  A panic of `Less` or `Swap` is `none`. -/
def sortSort (G : Globals) (p : pool) : Option pool :=
  sortOuter G (List.range' 1 (Len p - 1)) p

/-! ## The rounding of `float64` -/

/-- The integer nearest to `a / b`, the even one of the two when `a / b` lies half way
between two integers. -/
def roundHalfEven (a b : Nat) : Nat :=
  if 2 * (a % b) < b then a / b
  else if b < 2 * (a % b) then a / b + 1
  else if (a / b) % 2 = 0 then a / b else a / b + 1

/-- The binary exponent of the positive rational `a / b`: the `e` with
`2 ^ e ≤ a / b < 2 ^ (e + 1)`. -/
def binaryExponent (a b : Nat) : Int :=
  if b * 2 ^ a.log2 ≤ a * 2 ^ b.log2 then (a.log2 : Int) - (b.log2 : Int)
  else (a.log2 : Int) - (b.log2 : Int) - 1

/-- The positive rational `a / b` rounded to 53 significant bits, to nearest and ties
to even. -/
def roundPos (a b : Nat) : ℚ :=
  let k : Int := 52 - binaryExponent a b
  if 0 ≤ k then ((roundHalfEven (a * 2 ^ k.toNat) b : Nat) : ℚ) / ((2 ^ k.toNat : Nat) : ℚ)
  else ((roundHalfEven a (b * 2 ^ (-k).toNat) * 2 ^ (-k).toNat : Nat) : ℚ)

/-- The `float64` nearest to a rational, as every `float64` operation rounds its exact
result.  The exponent is not bounded: overflow and subnormal numbers are left out,
they do not arise for quotients of byte counts. -/
def roundFloat64 (x : ℚ) : ℚ :=
  if x = 0 then 0
  else if 0 < x then roundPos x.num.toNat x.den
  else - roundPos (-x).num.toNat x.den

/-- The `float64` returned by Go `genotype.score`: the quotient of `score`, rounded. -/
def scoreFloat64 (G : Globals) (g : genotype) : Option ℚ :=
  (score G g).map roundFloat64

/-- The state carried by an outcome. -/
def Outcome.state : Outcome → State
  | Outcome.done s => s
  | Outcome.again s => s

/-- Start-up of the program: `init`, then the statements of `main` before the loop.
`log.Fatal` ends the process, so after a failed `init` no statement of `main` runs and
no draw is made. -/
def startup (i : List Nat) (m : ℚ) (r : Rng) : Except String (Globals × State) :=
  match init i m with
  | Except.error e => Except.error e
  | Except.ok G =>
    match mainStart G r with
    | none => Except.error "index out of range"
    | some s => Except.ok (G, s)

/-! ## Sample runs -/

/-- The globals of a run on the target `"Z"` without mutation. -/
def globalsZ : Globals := { input := [90], inputLen := 1, mutationRate := 0 }

/-- The globals of a run on the target `"Z"` with a mutation rate of 1. -/
def globalsZmut : Globals := { input := [90], inputLen := 1, mutationRate := 1 }

/-- The globals of a run on the target `"AB"` without mutation. -/
def globalsAB : Globals := { input := [65, 66], inputLen := 2, mutationRate := 0 }

/-- The globals of a run on the two-byte target `"é"` (bytes `0xC3 0xA9`). -/
def globalsEacute : Globals := { input := [195, 169], inputLen := 2, mutationRate := 0 }

/-- The globals of a run on the target `"\x7b"` (byte 123, an opening brace) with the
default mutation rate. -/
def globalsBrace : Globals := { input := [123], inputLen := 1, mutationRate := 1 / 100 }

/-- The globals of a run on a target of 49 bytes `A`. -/
def globals49 : Globals :=
  { input := List.replicate 49 65, inputLen := 49, mutationRate := 0 }

/-- A genotype of 49 bytes that agrees with the target of `globals49` at its first
position only. -/
def oneMatch49 : genotype := 65 :: List.replicate 48 66

/-- A stream of draws whose first population lacks `"Z"`. -/
def drawsA : Rng := fun n => { int := n * 7, num := n % 10, den := 9 }

/-- A stream of draws whose first population holds `"Z"`. -/
def drawsB : Rng := fun n => { int := n + 58, num := 0, den := 0 }

/-- A stream of draws whose `k`-th call of `rand.Float64` returns `k / 5` (taken
modulo 1). -/
def drawsC : Rng := fun n => { int := 0, num := n, den := 4 }

/-! ## Ranging over a string: lemmas -/

theorem runeWidth_ascii (b : Nat) (rest : List Nat) (h : b < 128) :
    runeWidth (b :: rest) = 1 := by
  simp [runeWidth, h]

/-- On a string of ASCII bytes a `range` loop visits every index, in order. -/
theorem rangeFrom_ascii : ∀ (s : List Nat) (k : Nat), (∀ b ∈ s, b < 128) →
    rangeFrom 0 k s = List.range' k s.length
  | [], k, _ => by simp [rangeFrom]
  | b :: rest, k, h => by
    have hb : b < 128 := h b (List.mem_cons_self _ _)
    have ih := rangeFrom_ascii rest (k + 1) (fun x hx => h x (List.mem_cons_of_mem _ hx))
    simp [rangeFrom, runeWidth_ascii b rest hb, ih, List.range'_succ]

theorem rangeIndices_ascii (s : List Nat) (h : ∀ b ∈ s, b < 128) :
    rangeIndices s = List.range s.length := by
  rw [rangeIndices, rangeFrom_ascii s 0 h, List.range_eq_range']

/-- Every index visited by a `range` loop lies inside the string. -/
theorem rangeFrom_bound : ∀ (s : List Nat) (skip k i : Nat),
    i ∈ rangeFrom skip k s → k ≤ i ∧ i < k + s.length
  | [], _, _, _, h => by simp [rangeFrom] at h
  | b :: rest, 0, k, i, h => by
    simp only [rangeFrom, List.mem_cons] at h
    rcases h with h | h
    · subst h; simp
    · have := rangeFrom_bound rest _ (k + 1) i h
      simp only [List.length_cons]; omega
  | b :: rest, skip + 1, k, i, h => by
    simp only [rangeFrom] at h
    have := rangeFrom_bound rest _ (k + 1) i h
    simp only [List.length_cons]; omega

theorem rangeFrom_length_le : ∀ (s : List Nat) (skip k : Nat),
    (rangeFrom skip k s).length ≤ s.length
  | [], _, _ => by simp [rangeFrom]
  | b :: rest, 0, k => by
    have := rangeFrom_length_le rest (runeWidth (b :: rest) - 1) (k + 1)
    simp only [rangeFrom, List.length_cons]; omega
  | b :: rest, skip + 1, k => by
    have := rangeFrom_length_le rest skip (k + 1)
    simp only [rangeFrom, List.length_cons]; omega

theorem rangeIndices_lt (s : List Nat) (i : Nat) (h : i ∈ rangeIndices s) : i < s.length := by
  have := rangeFrom_bound s 0 0 i h
  omega

theorem rangeIndices_length_le (s : List Nat) : (rangeIndices s).length ≤ s.length :=
  rangeFrom_length_le s 0 0

/-! ## score and matches: lemmas -/

/-- The loop of `score` counts the visited positions at which the two strings agree. -/
theorem scoreLoop_eq (input g : List Nat) (hlen : g.length = input.length) :
    ∀ (is : List Nat) (f : Nat), (∀ i ∈ is, i < g.length) →
      scoreLoop input g is f = some (f + is.countP (fun k => decide (g[k]? = input[k]?)))
  | [], f, _ => by simp [scoreLoop]
  | i :: is, f, h => by
    have hi : i < g.length := h i (List.mem_cons_self _ _)
    have hi2 : i < input.length := hlen ▸ hi
    have ih := fun f => scoreLoop_eq input g hlen is f
      (fun x hx => h x (List.mem_cons_of_mem _ hx))
    simp only [scoreLoop, List.getElem?_eq_getElem hi, List.getElem?_eq_getElem hi2, ih,
      List.countP_cons, Option.some.injEq, decide_eq_true_eq]
    by_cases e : g[i] = input[i]
    · simp [e]; omega
    · simp [e]

/-- What a successful `init` leaves in the package variables. -/
theorem init_ok {i : List Nat} {m : ℚ} {G : Globals} (h : init i m = Except.ok G) :
    0 < i.length ∧ G.input = i ∧ G.inputLen = (i.length : ℚ) ∧ G.mutationRate = m := by
  unfold init at h
  split at h
  · cases h
  · injection h with h
    subst h
    exact ⟨by omega, rfl, rfl, rfl⟩

/-- The value of `score` in terms of the positions visited by its loop. -/
theorem score_eq (G : Globals) (g : genotype) (hlen : g.length = G.input.length) :
    score G g = some ((((rangeIndices g).countP
      (fun k => decide (g[k]? = G.input[k]?)) : Nat) : ℚ) / G.inputLen) := by
  unfold score
  rw [scoreLoop_eq G.input g hlen (rangeIndices g) 0 (fun i hi => rangeIndices_lt g i hi)]
  simp

/-- On an ASCII genotype `score` counts over all positions. -/
theorem score_ascii (G : Globals) (g : genotype) (hlen : g.length = G.input.length)
    (hascii : ∀ b ∈ g, b < 128) :
    score G g = some ((((List.range g.length).countP
      (fun k => decide (g[k]? = G.input[k]?)) : Nat) : ℚ) / G.inputLen) := by
  rw [score_eq G g hlen, rangeIndices_ascii g hascii]

/-- Two strings of one length are equal when they agree at every position. -/
theorem eq_iff_countP_range (g t : List Nat) (hlen : g.length = t.length) :
    (List.range g.length).countP (fun k => decide (g[k]? = t[k]?)) = g.length ↔ g = t := by
  have h1 := List.countP_eq_length
    (p := fun k => decide (g[k]? = t[k]?)) (l := List.range g.length)
  rw [List.length_range] at h1
  rw [h1]
  constructor
  · intro h
    apply List.ext_getElem? 
    intro n
    by_cases hn : n < g.length
    · simpa using h n (List.mem_range.mpr hn)
    · have h2 : ¬ n < t.length := hlen ▸ hn
      rw [List.getElem?_eq_none (by omega), List.getElem?_eq_none (by omega)]
  · intro h a _
    simp [h]

/-- The score of a genotype of the right length is a fraction between 0 and 1. -/
theorem score_bounds (G : Globals) (g : genotype) (hlen : g.length = G.input.length)
    (hlenQ : G.inputLen = (G.input.length : ℚ)) (hpos : 0 < G.input.length) :
    ∃ q, score G g = some q ∧ 0 ≤ q ∧ q ≤ 1 := by
  refine ⟨_, score_eq G g hlen, ?_, ?_⟩
  · rw [hlenQ]; positivity
  · rw [hlenQ]
    have h1 : (rangeIndices g).countP (fun k => decide (g[k]? = G.input[k]?))
        ≤ G.input.length :=
      le_trans (List.countP_le_length _) (hlen ▸ rangeIndices_length_le g)
    have hq : (0 : ℚ) < (G.input.length : ℚ) := by exact_mod_cast hpos
    rw [div_le_one hq]
    exact_mod_cast h1

/-- The two extreme scores of an ASCII genotype. -/
theorem score_extremes (G : Globals) (g : genotype) (hlen : g.length = G.input.length)
    (hlenQ : G.inputLen = (G.input.length : ℚ)) (hpos : 0 < G.input.length)
    (hascii : ∀ b ∈ g, b < 128) :
    ∃ q, score G g = some q ∧ (q = 1 ↔ g = G.input) ∧
      (q = 0 ↔ ∀ k, k < g.length → g[k]? ≠ G.input[k]?) := by
  have hq : (0 : ℚ) < (G.input.length : ℚ) := by exact_mod_cast hpos
  refine ⟨_, score_ascii G g hlen hascii, ?_, ?_⟩
  · rw [hlenQ, div_eq_one_iff_eq (ne_of_gt hq), ← eq_iff_countP_range g G.input hlen, ← hlen]
    exact_mod_cast Iff.rfl
  · rw [hlenQ, div_eq_zero_iff]
    constructor
    · intro h
      rcases h with h | h
      · have h0 : (List.range g.length).countP (fun k => decide (g[k]? = G.input[k]?)) = 0 := by
          exact_mod_cast h
        rw [List.countP_eq_zero] at h0
        intro k hk
        simpa using h0 k (List.mem_range.mpr hk)
      · exact absurd h (ne_of_gt hq)
    · intro h
      left
      have h0 : (List.range g.length).countP (fun k => decide (g[k]? = G.input[k]?)) = 0 := by
        rw [List.countP_eq_zero]
        intro k hk
        simpa using h k (List.mem_range.mp hk)
      exact_mod_cast h0

/-- The loop of `matches` writes a marker at every visited position and leaves the
rest of the buffer as it was. -/
theorem matchesLoop_spec (input g : List Nat) (hlen : g.length = input.length) :
    ∀ (is : List Nat) (b : List Nat), (∀ i ∈ is, i < g.length) →
      ∃ b', matchesLoop input g is b = some b' ∧ b'.length = b.length ∧
        ∀ k, b'[k]? = if k ∈ is ∧ k < b.length
          then some (if g[k]? = input[k]? then 124 else 32) else b[k]?
  | [], b, _ => ⟨b, by simp [matchesLoop]⟩
  | i :: is, b, h => by
    have hi : i < g.length := h i (List.mem_cons_self _ _)
    have hi2 : i < input.length := hlen ▸ hi
    obtain ⟨b', h1, h2, h3⟩ := matchesLoop_spec input g hlen is
      (b.set i (if g[i] = input[i] then 124 else 32))
      (fun x hx => h x (List.mem_cons_of_mem _ hx))
    refine ⟨b', ?_, ?_, ?_⟩
    · simp only [matchesLoop, List.getElem?_eq_getElem hi, List.getElem?_eq_getElem hi2]
      exact h1
    · simpa using h2
    · intro k
      rw [h3 k]
      simp only [List.length_set, List.mem_cons, List.getElem?_set]
      by_cases hk : k ∈ is
      · by_cases hkb : k < b.length
        · simp [hk, hkb]
        · have hnone : b[k]? = none := List.getElem?_eq_none (by omega)
          by_cases hik : i = k
          · subst hik; simp [hk, hkb, hnone]
          · simp [hk, hkb, hik]
      · by_cases hik : i = k
        · subst hik
          by_cases hkb : i < b.length
          · simp [hk, hkb, List.getElem?_eq_getElem hi, List.getElem?_eq_getElem hi2]
          · simp [hk, hkb]
            omega
        · have hki : ¬ k = i := fun e => hik e.symm
          simp [hk, hik, hki]

/-- The result of `matches` on a genotype of the right length: defined, of the same
length, and on an ASCII genotype a marker at every position. -/
theorem matchesOf_spec (G : Globals) (g : genotype) (hlen : g.length = G.input.length) :
    ∃ b, matchesOf G g = some b ∧ b.length = g.length ∧
      ((∀ x ∈ g, x < 128) → ∀ k, k < g.length →
        b[k]? = some (if g[k]? = G.input[k]? then 124 else 32)) := by
  obtain ⟨b, h1, h2, h3⟩ := matchesLoop_spec G.input g hlen (rangeIndices g)
    (List.replicate g.length 0) (fun i hi => rangeIndices_lt g i hi)
  refine ⟨b, h1, by simpa using h2, ?_⟩
  intro hascii k hk
  rw [h3 k, rangeIndices_ascii g hascii]
  simp [hk]

/-! ## The random source and populate: lemmas -/

theorem randASCII_range (r : Rng) : 32 ≤ (randASCII r).1 ∧ (randASCII r).1 ≤ 122 := by
  simp only [randASCII, randIntn]
  omega

theorem randFloat64_range (r : Rng) : 0 ≤ (randFloat64 r).1 ∧ (randFloat64 r).1 < 1 := by
  simp only [randFloat64]
  constructor
  · positivity
  · have hpos : (0 : ℚ) < ((((r 0).den + 1 : Nat)) : ℚ) := by positivity
    rw [div_lt_one hpos]
    have : (r 0).num % ((r 0).den + 1) < (r 0).den + 1 := Nat.mod_lt _ (Nat.succ_pos _)
    exact_mod_cast this

/-- The inner loop of `populate` appends `n` bytes of the range of `randASCII`. -/
theorem randomStr_spec : ∀ (n : Nat) (str : List Nat) (r : Rng),
    (randomStr n str r).1.length = str.length + n ∧
      ∀ b ∈ (randomStr n str r).1, b ∈ str ∨ (32 ≤ b ∧ b ≤ 122)
  | 0, str, r => by
    simp only [randomStr]
    exact ⟨rfl, fun b hb => Or.inl hb⟩
  | n + 1, str, r => by
    obtain ⟨h1, h2⟩ := randomStr_spec n (str ++ [(randASCII r).1]) (randASCII r).2
    simp only [randomStr]
    refine ⟨by rw [h1]; simp; omega, ?_⟩
    intro b hb
    rcases h2 b hb with h | h
    · rcases List.mem_append.mp h with h | h
      · exact Or.inl h
      · right
        rw [List.mem_singleton.mp h]
        exact randASCII_range r
    · exact Or.inr h

/-- The outer loop of `populate` keeps the length of the pool and fills every visited
slot with a string made by the inner loop. -/
theorem populateLoop_spec (strSize : Nat) (P : genotype → Prop)
    (hP : ∀ r, P (randomStr strSize [] r).1) :
    ∀ (is : List Nat) (p : pool) (r : Rng),
      (populateLoop strSize is p r).1.length = p.length ∧
        ((∀ j g, p[j]? = some g → j ∈ is ∨ P g) →
          ∀ g ∈ (populateLoop strSize is p r).1, P g)
  | [], p, r => by
    refine ⟨rfl, ?_⟩
    intro h g hg
    obtain ⟨j, hj⟩ := List.mem_iff_getElem?.mp hg
    rcases h j g hj with h | h
    · simp at h
    · exact h
  | i :: is, p, r => by
    obtain ⟨h1, h2⟩ := populateLoop_spec strSize P hP is
      (p.set i (randomStr strSize [] r).1) (randomStr strSize [] r).2
    simp only [populateLoop]
    refine ⟨by rw [h1]; simp, ?_⟩
    intro h
    apply h2
    intro j g hj
    rw [List.getElem?_set] at hj
    by_cases hij : i = j
    · right
      rw [if_pos hij] at hj
      split at hj
      · injection hj with hj
        rw [← hj]
        exact hP r
      · cases hj
    · rw [if_neg hij] at hj
      rcases h j g hj with h | h
      · rcases List.mem_cons.mp h with h | h
        · exact absurd h.symm hij
        · exact Or.inl h
      · exact Or.inr h

/-- What `populate` returns: `populationSize` strings of `strSize` bytes each, all in
the range of `randASCII`. -/
theorem populate_spec (n strSize : Nat) (r : Rng) :
    (populate n strSize r).1.length = n ∧
      ∀ g ∈ (populate n strSize r).1,
        g.length = strSize ∧ ∀ b ∈ g, 32 ≤ b ∧ b ≤ 122 := by
  have hP : ∀ r, (randomStr strSize [] r).1.length = strSize ∧
      ∀ b ∈ (randomStr strSize [] r).1, 32 ≤ b ∧ b ≤ 122 := by
    intro r
    obtain ⟨h1, h2⟩ := randomStr_spec strSize [] r
    refine ⟨by simpa using h1, ?_⟩
    intro b hb
    rcases h2 b hb with h | h
    · simp at h
    · exact h
  obtain ⟨h1, h2⟩ := populateLoop_spec strSize
    (fun g => g.length = strSize ∧ ∀ b ∈ g, 32 ≤ b ∧ b ≤ 122) hP
    (List.range n) (List.replicate n []) r
  refine ⟨by simpa [populate] using h1, ?_⟩
  apply h2
  intro j g hj
  left
  rw [List.mem_range]
  by_contra hlt
  rw [List.getElem?_eq_none (by simpa using hlt)] at hj
  cases hj

/-! ## Reproduction: lemmas -/

/-- One position of a child: the byte written is the byte of one of the parents, or,
when the mutation test can succeed, a byte of the range of `randASCII`. -/
theorem childLoop_cons (G : Globals) (p1 p2 : genotype) (hlen : p2.length = p1.length)
    (i : Nat) (hi : i < p1.length) (is child : List Nat) (r : Rng) :
    ∃ v r2, childLoop G p1 p2 (i :: is) child r = childLoop G p1 p2 is (child.set i v) r2 ∧
      (p1[i]? = some v ∨ p2[i]? = some v ∨ (0 < G.mutationRate ∧ 32 ≤ v ∧ v ≤ 122)) := by
  have hi2 : i < p2.length := by omega
  by_cases hc : (randFloat64 r).1 > crossoverThreshold
  · by_cases hm : (randFloat64 (randFloat64 r).2).1 < G.mutationRate
    · refine ⟨(randASCII (randFloat64 (randFloat64 r).2).2).1,
        (randASCII (randFloat64 (randFloat64 r).2).2).2, ?_,
        Or.inr (Or.inr ⟨lt_of_le_of_lt (randFloat64_range _).1 hm, randASCII_range _⟩)⟩
      simp [childLoop, hc, hm, List.getElem?_eq_getElem hi, List.set_set]
    · refine ⟨p1[i], (randFloat64 (randFloat64 r).2).2, ?_,
        Or.inl (List.getElem?_eq_getElem hi)⟩
      simp [childLoop, hc, hm, List.getElem?_eq_getElem hi]
  · by_cases hm : (randFloat64 (randFloat64 r).2).1 < G.mutationRate
    · refine ⟨(randASCII (randFloat64 (randFloat64 r).2).2).1,
        (randASCII (randFloat64 (randFloat64 r).2).2).2, ?_,
        Or.inr (Or.inr ⟨lt_of_le_of_lt (randFloat64_range _).1 hm, randASCII_range _⟩)⟩
      simp [childLoop, hc, hm, List.getElem?_eq_getElem hi2, List.set_set]
    · refine ⟨p2[i], (randFloat64 (randFloat64 r).2).2, ?_,
        Or.inr (Or.inl (List.getElem?_eq_getElem hi2))⟩
      simp [childLoop, hc, hm, List.getElem?_eq_getElem hi2]

/-- The loop that builds a child: it ends without a panic, keeps the length of the
buffer, writes a byte of the kind allowed by `childLoop_cons` at each visited position
and leaves the other positions as they were. -/
theorem childLoop_spec (G : Globals) (p1 p2 : genotype) (hlen : p2.length = p1.length) :
    ∀ (is child : List Nat) (r : Rng), (∀ i ∈ is, i < p1.length) →
      ∃ ch r2, childLoop G p1 p2 is child r = some (ch, r2) ∧ ch.length = child.length ∧
        ∀ k, (k ∈ is → k < child.length → ∃ v, ch[k]? = some v ∧
            (p1[k]? = some v ∨ p2[k]? = some v ∨ (0 < G.mutationRate ∧ 32 ≤ v ∧ v ≤ 122))) ∧
          (k ∉ is → ch[k]? = child[k]?)
  | [], child, r, _ => ⟨child, r, by simp [childLoop]⟩
  | i :: is, child, r, h => by
    have hi : i < p1.length := h i (List.mem_cons_self _ _)
    obtain ⟨v, r1, hstep, hv⟩ := childLoop_cons G p1 p2 hlen i hi is child r
    obtain ⟨ch, r2, h1, h2, h3⟩ := childLoop_spec G p1 p2 hlen is (child.set i v) r1
      (fun x hx => h x (List.mem_cons_of_mem _ hx))
    refine ⟨ch, r2, hstep.trans h1, by simpa using h2, ?_⟩
    intro k
    have hk := h3 k
    rw [List.length_set] at hk
    constructor
    · intro hmem hlt
      by_cases hkis : k ∈ is
      · exact hk.1 hkis hlt
      · have hki : k = i := by
          rcases List.mem_cons.mp hmem with e | e
          · exact e
          · exact absurd e hkis
        subst hki
        refine ⟨v, ?_, hv⟩
        rw [hk.2 hkis, List.getElem?_set]
        simp [hlt]
    · intro hmem
      have hkis : k ∉ is := fun e => hmem (List.mem_cons_of_mem _ e)
      have hki : ¬ i = k := fun e => hmem (e ▸ List.mem_cons_self _ _)
      rw [hk.2 hkis, List.getElem?_set, if_neg hki]

/-- A child of two parents of one length: built without a panic, of the length of the
parents; when the first parent is ASCII every byte is a byte of a parent at that
position or a mutated byte. -/
theorem makeChild_spec (G : Globals) (p1 p2 : genotype) (hlen : p2.length = p1.length)
    (r : Rng) :
    ∃ ch r2, makeChild G p1 p2 r = some (ch, r2) ∧ ch.length = p1.length ∧
      ((∀ b ∈ p1, b < 128) → ∀ k, k < p1.length → ∃ v, ch[k]? = some v ∧
        (p1[k]? = some v ∨ p2[k]? = some v ∨ (0 < G.mutationRate ∧ 32 ≤ v ∧ v ≤ 122))) := by
  obtain ⟨ch, r2, h1, h2, h3⟩ := childLoop_spec G p1 p2 hlen (rangeIndices p1)
    (List.replicate p1.length 0) r (fun i hi => rangeIndices_lt p1 i hi)
  refine ⟨ch, r2, h1, by simpa using h2, ?_⟩
  intro hascii k hk
  apply (h3 k).1
  · rw [rangeIndices_ascii p1 hascii]
    exact List.mem_range.mpr hk
  · simpa using hk

/-- The reproduction loop: it ends without a panic, keeps the length of `children`
and fills every visited slot with a child of `best` and a member of the population. -/
theorem childrenLoop_spec (G : Globals) (population : pool) (best : genotype)
    (P : genotype → Prop) (hpop : population.length = populationSize)
    (hdef : ∀ p2 ∈ population, ∀ r, ∃ ch r2, makeChild G best p2 r = some (ch, r2) ∧ P ch) :
    ∀ (is : List Nat) (children : pool) (r : Rng), (∀ i ∈ is, i < children.length) →
      ∃ q r2, childrenLoop G population best is children r = some (q, r2) ∧
        q.length = children.length ∧
          ((∀ j g, children[j]? = some g → j ∈ is ∨ P g) → ∀ g ∈ q, P g)
  | [], children, r, _ => by
    refine ⟨children, r, by simp [childrenLoop], rfl, ?_⟩
    intro h g hg
    obtain ⟨j, hj⟩ := List.mem_iff_getElem?.mp hg
    rcases h j g hj with h | h
    · simp at h
    · exact h
  | i :: is, children, r, h => by
    have hi : i < children.length := h i (List.mem_cons_self _ _)
    have hd : (randIntn populationSize r).1 < population.length := by
      rw [hpop]
      exact Nat.mod_lt _ (by decide)
    obtain ⟨ch, r1, hmk, hch⟩ := hdef population[(randIntn populationSize r).1]
      (List.getElem_mem _) (randIntn populationSize r).2
    obtain ⟨q, r2, h1, h2, h3⟩ := childrenLoop_spec G population best P hpop hdef is
      (children.set i ch) r1
      (fun x hx => by rw [List.length_set]; exact h x (List.mem_cons_of_mem _ hx))
    refine ⟨q, r2, ?_, by simpa using h2, ?_⟩
    · simp only [childrenLoop, List.getElem?_eq_getElem hd, hmk, if_pos hi]
      exact h1
    · intro hc
      apply h3
      intro j g hj
      rw [List.getElem?_set] at hj
      by_cases hij : i = j
      · right
        rw [if_pos hij, if_pos hi] at hj
        injection hj with hj
        rw [← hj]
        exact hch
      · rw [if_neg hij] at hj
        rcases hc j g hj with h | h
        · rcases List.mem_cons.mp h with h | h
          · exact absurd h.symm hij
          · exact Or.inl h
        · exact Or.inr h

/-- The reproduction step yields `populationSize` children. -/
theorem reproduce_spec (G : Globals) (population : pool) (best : genotype)
    (P : genotype → Prop) (hpop : population.length = populationSize)
    (hdef : ∀ p2 ∈ population, ∀ r, ∃ ch r2, makeChild G best p2 r = some (ch, r2) ∧ P ch)
    (r : Rng) :
    ∃ q r2, reproduce G population best r = some (q, r2) ∧ q.length = populationSize ∧
      ∀ g ∈ q, P g := by
  obtain ⟨q, r2, h1, h2, h3⟩ := childrenLoop_spec G population best P hpop hdef
    (List.range populationSize) (List.replicate populationSize []) r
    (fun i hi => by simpa using hi)
  refine ⟨q, r2, h1, by simpa using h2, ?_⟩
  apply h3
  intro j g hj
  left
  rw [List.mem_range]
  by_contra hlt
  rw [List.getElem?_eq_none (by simpa using hlt)] at hj
  cases hj

theorem GoodGenotype.ascii {G : Globals} {g : genotype} (h : GoodGenotype G g) :
    ∀ b ∈ g, b < 128 := by
  intro b hb
  have := h.2 b hb
  omega

/-- A child of two good genotypes is a good genotype. -/
theorem makeChild_good (G : Globals) (p1 p2 : genotype) (h1 : GoodGenotype G p1)
    (h2 : GoodGenotype G p2) (r : Rng) :
    ∃ ch r2, makeChild G p1 p2 r = some (ch, r2) ∧ GoodGenotype G ch := by
  obtain ⟨ch, r2, hmk, hl, hb⟩ := makeChild_spec G p1 p2 (h2.1.trans h1.1.symm) r
  refine ⟨ch, r2, hmk, hl.trans h1.1, ?_⟩
  intro b hmem
  obtain ⟨k, hk, hkb⟩ := List.getElem_of_mem hmem
  obtain ⟨v, hv, hsrc⟩ := hb h1.ascii k (hl ▸ hk)
  rw [List.getElem?_eq_getElem hk, hkb] at hv
  injection hv with hv
  subst hv
  rcases hsrc with e | e | e
  · exact h1.2 b (List.getElem?_mem e)
  · exact h2.2 b (List.getElem?_mem e)
  · exact e.2

/-- Sorting keeps a good pool good. -/
theorem GoodPool.sort {G : Globals} (srt : Sorter G) {p : pool} (h : GoodPool G p) :
    GoodPool G (srt.sort p) :=
  ⟨(srt.perm p).length_eq.trans h.1, fun g hg => h.2 g ((srt.perm p).mem_iff.mp hg)⟩

/-- Reproduction from a good pool yields a good pool. -/
theorem reproduce_good (G : Globals) (population : pool) (best : genotype)
    (hp : GoodPool G population) (hbest : best ∈ population) (r : Rng) :
    ∃ q r2, reproduce G population best r = some (q, r2) ∧ GoodPool G q := by
  obtain ⟨q, r2, h1, h2, h3⟩ := reproduce_spec G population best (GoodGenotype G) hp.1
    (fun p2 hp2 r => makeChild_good G best p2 (hp.2 best hbest) (hp.2 p2 hp2) r) r
  exact ⟨q, r2, h1, h2, h3⟩

/-- The first population of a run is good. -/
theorem mainStart_good (G : Globals) (r : Rng) :
    ∃ s, mainStart G r = some s ∧ s.population = (populate populationSize G.input.length r).1 ∧
      s.generation = 1 ∧ s.out = [] ∧ GoodPool G s.population := by
  obtain ⟨h1, h2⟩ := populate_spec populationSize G.input.length r
  have hg : GoodPool G (populate populationSize G.input.length r).1 := ⟨h1, h2⟩
  unfold mainStart
  generalize populate populationSize G.input.length r = d at h1 hg ⊢
  have hpos : 0 < d.1.length := by rw [h1]; exact Nat.succ_pos 24
  simp only [List.getElem?_eq_getElem hpos]
  exact ⟨_, rfl, rfl, rfl, rfl, hg⟩

/-- How a pass that goes round again is made up. -/
theorem loopBody_again (G : Globals) (srt : Sorter G) (s t : State)
    (h : loopBody G srt s = some (Outcome.again t)) :
    ∃ best out, (srt.sort s.population).getLast? = some best ∧ best ≠ G.input ∧
      report G s.generation best false s.out = some out ∧
      reproduce G (srt.sort s.population) best s.rng = some (t.population, t.rng) ∧
      t.generation = s.generation + 1 ∧ t.fittest = best ∧ t.out = out := by
  unfold loopBody at h
  split at h
  · cases h
  · simp only at h
    split at h
    · cases h
    · rename_i best hbest
      split at h
      · cases h
      · rename_i out hout
        split at h
        · cases h
        · rename_i hfound
          split at h
          · cases h
          · rename_i children r hrep
            injection h with h
            injection h with h
            subst h
            have hne : best ≠ G.input := by simpa using hfound
            have hd : decide (best = G.input) = false := by simpa using hne
            rw [hd] at hout
            exact ⟨best, out, hbest, hne, hout, hrep, rfl, rfl, rfl⟩

/-- The report step succeeds on a genotype of the length of the target. -/
theorem report_defined (G : Globals) (n : Nat) (g : genotype) (found : Bool)
    (out : List Report) (hlen : g.length = G.input.length) :
    ∃ out2, report G n g found out = some out2 := by
  obtain ⟨b, hb, _⟩ := matchesOf_spec G g hlen
  unfold report
  split
  · rw [hb, score_eq G g hlen]
    exact ⟨_, rfl⟩
  · exact ⟨_, rfl⟩

/-- A pass over a good pool ends without a panic: at the `break` when the last
genotype of the sorted pool is the target, and with a good pool of children if not. -/
theorem loopBody_spec (G : Globals) (srt : Sorter G) (s : State)
    (hp : GoodPool G s.population) :
    ∃ best out, (srt.sort s.population).getLast? = some best ∧ best ∈ s.population ∧
      report G s.generation best (decide (best = G.input)) s.out = some out ∧
      (best = G.input → loopBody G srt s = some (Outcome.done
        (State.mk (srt.sort s.population) s.generation best s.rng out))) ∧
      (best ≠ G.input → ∃ children r,
        reproduce G (srt.sort s.population) best s.rng = some (children, r) ∧
        GoodPool G children ∧
        loopBody G srt s = some (Outcome.again
          (State.mk children (s.generation + 1) best r out))) := by
  have hscores : ∀ g ∈ s.population, (score G g).isSome = true := by
    intro g hg
    rw [score_eq G g (hp.2 g hg).1]
    rfl
  have hguard : ¬ (2 ≤ s.population.length ∧
      ¬ (∀ g ∈ s.population, (score G g).isSome = true)) := fun h => h.2 hscores
  have hps := hp.sort srt
  have hne : srt.sort s.population ≠ [] := by
    intro e
    have h25 := hps.1
    rw [e] at h25
    cases h25
  have hlast := List.getLast?_eq_getLast _ hne
  have hmem : (srt.sort s.population).getLast hne ∈ srt.sort s.population :=
    List.getLast_mem hne
  generalize (srt.sort s.population).getLast hne = best at hlast hmem
  obtain ⟨out, hout⟩ := report_defined G s.generation best (decide (best = G.input)) s.out
    (hps.2 best hmem).1
  refine ⟨best, out, hlast, (srt.perm _).mem_iff.mp hmem, hout, ?_, ?_⟩
  · intro hb
    unfold loopBody
    rw [if_neg hguard]
    simp only [hlast, hout]
    simp [hb]
  · intro hb
    obtain ⟨q, r2, hrep, hq⟩ := reproduce_good G (srt.sort s.population) best hps hmem s.rng
    refine ⟨q, r2, hrep, hq, ?_⟩
    unfold loopBody
    rw [if_neg hguard]
    simp only [hlast, hout, hrep]
    simp [hb]

/-- Every population of a run is good. -/
theorem reachable_good (G : Globals) (srt : Sorter G) (s : State)
    (h : Reachable G srt s) : GoodPool G s.population := by
  induction h with
  | start r s hs =>
    obtain ⟨s0, h0, _, _, _, hg⟩ := mainStart_good G r
    rw [h0] at hs
    injection hs with hs
    rw [← hs]
    exact hg
  | pass s t _ hstep ih =>
    obtain ⟨best, out, hlast, hmem, _, _, hagain⟩ := loopBody_spec G srt s ih
    obtain ⟨best2, out2, hlast2, hne, _, hrep, _⟩ := loopBody_again G srt s t hstep
    rw [hlast] at hlast2
    injection hlast2 with hb
    subst hb
    obtain ⟨children, r, hrep2, hgood, _⟩ := hagain hne
    rw [hrep] at hrep2
    injection hrep2 with hrep2
    injection hrep2 with hc _
    rw [hc]
    exact hgood

/-- The state after `n` passes is a state of a run. -/
theorem afterPasses_reachable (G : Globals) (srt : Sorter G) (r : Rng) :
    ∀ (n : Nat) (s : State), afterPasses G srt r n = some s → Reachable G srt s
  | 0, s, h => Reachable.start r s h
  | n + 1, s, h => by
    simp only [afterPasses] at h
    split at h
    · cases h
    · rename_i s0 hs0
      split at h
      · rename_i t ht
        injection h with h
        subst h
        exact Reachable.pass s0 _ (afterPasses_reachable G srt r n s0 hs0) ht
      · cases h

/-- In a sorted good pool the last genotype is the target exactly when the target is
in the pool. -/
theorem best_eq_input_iff (G : Globals) (srt : Sorter G) (p : pool) (hp : GoodPool G p)
    (hlenQ : G.inputLen = (G.input.length : ℚ)) (hpos : 0 < G.input.length)
    (best : genotype) (hlast : (srt.sort p).getLast? = some best) :
    best = G.input ↔ G.input ∈ p := by
  have hps := hp.sort srt
  have hbmem : best ∈ srt.sort p := List.mem_of_getLast?_eq_some hlast
  constructor
  · intro hb
    exact hb ▸ (srt.perm p).mem_iff.mp hbmem
  · intro hin
    have hin2 : G.input ∈ srt.sort p := (srt.perm p).mem_iff.mpr hin
    obtain ⟨a, ha, hai⟩ := List.getElem_of_mem hin2
    rw [List.getLast?_eq_getElem?] at hlast
    by_cases haj : a = (srt.sort p).length - 1
    · rw [← haj, List.getElem?_eq_getElem ha, hai] at hlast
      injection hlast with hlast
      exact hlast.symm
    · have hscores : ∀ g ∈ p, (score G g).isSome = true := by
        intro g hg
        rw [score_eq G g (hp.2 g hg).1]
        rfl
      have hsorted := srt.sorted p hscores a ((srt.sort p).length - 1) (by omega) (by omega)
      obtain ⟨x, hx, hx1, _⟩ := score_extremes G best (hps.2 best hbmem).1 hlenQ hpos
        (hps.2 best hbmem).ascii
      obtain ⟨y, hy, hy1, _⟩ := score_extremes G G.input rfl hlenQ hpos
        (hps.2 G.input hin2).ascii
      obtain ⟨x2, hx2, _, hxle⟩ := score_bounds G best (hps.2 best hbmem).1 hlenQ hpos
      rw [hx] at hx2
      injection hx2 with hx2
      subst hx2
      have hy2 : y = 1 := hy1.mpr rfl
      subst hy2
      unfold Less at hsorted
      rw [hlast, List.getElem?_eq_getElem ha, hai] at hsorted
      simp only [hx, hy, Option.some.injEq, decide_eq_false_iff_not, not_lt] at hsorted
      exact hx1.mp (le_antisymm hxle hsorted)

/-! ## Reproduction when every position is mutated -/

theorem Rng.drop_drop (r : Rng) (a b : Nat) : (r.drop a).drop b = r.drop (a + b) := by
  funext n
  simp only [Rng.drop]
  congr 1
  omega

/-- With a mutation rate of 1 the loop that builds a child writes, at each position,
the byte returned by the call of `randASCII` made for that position: the third of the
three draws of the position. -/
theorem childLoop_mutated (G : Globals) (p1 p2 : genotype) (hlen : p2.length = p1.length)
    (hm : G.mutationRate = 1) :
    ∀ (n k : Nat) (pre : List Nat) (r : Rng), pre.length = k → k + n ≤ p1.length →
      childLoop G p1 p2 (List.range' k n) (pre ++ List.replicate n 0) r =
        some (pre ++ (List.range n).map (fun t => (randASCII (r.drop (3 * t + 2))).1),
          r.drop (3 * n))
  | 0, k, pre, r, _, _ => by
    simp only [List.range', List.replicate, childLoop, List.range_zero, List.map_nil]
    rfl
  | n + 1, k, pre, r, hk, hkn => by
    have hk1 : k < p1.length := by omega
    have hk2 : k < p2.length := by omega
    have hmut : (randFloat64 (randFloat64 r).2).1 < G.mutationRate := by
      rw [hm]
      exact (randFloat64_range _).2
    have hset : ∀ b a : Nat, ((pre ++ List.replicate (n + 1) 0).set k b).set k a
        = (pre ++ [a]) ++ List.replicate n 0 := by
      intro b a
      rw [List.set_set, ← hk]
      simp [List.replicate_succ]
    have ih := childLoop_mutated G p1 p2 hlen hm n (k + 1)
      (pre ++ [(randASCII (r.drop 2)).1]) (r.drop 3) (by simp [hk]) (by omega)
    have htail : (randASCII (randFloat64 (randFloat64 r).2).2) = randASCII (r.drop 2) := rfl
    have htail2 : (randASCII (r.drop 2)).2 = r.drop 3 := rfl
    have hres : (pre ++ [(randASCII (r.drop 2)).1]) ++
          (List.range n).map (fun t => (randASCII ((r.drop 3).drop (3 * t + 2))).1)
        = pre ++ (List.range (n + 1)).map (fun t => (randASCII (r.drop (3 * t + 2))).1) := by
      rw [List.range_succ_eq_map, List.map_cons, List.map_map, List.append_assoc]
      congr 2
    have hrng : (r.drop 3).drop (3 * n) = r.drop (3 * (n + 1)) := by
      have e : 3 + 3 * n = 3 * (n + 1) := by omega
      rw [Rng.drop_drop, e]
    rw [← hres, ← hrng, ← ih]
    simp only [List.range'_succ, childLoop]
    by_cases hc : (randFloat64 r).1 > crossoverThreshold
    · simp only [hc, if_true, List.getElem?_eq_getElem hk1, hmut, hset, htail, htail2]
    · simp only [hc, if_false, List.getElem?_eq_getElem hk2, hmut, if_true, hset, htail, htail2]

/-- With a mutation rate of 1 a child of an ASCII first parent is made of the bytes
returned by `randASCII`, whatever the parents hold. -/
theorem makeChild_mutated (G : Globals) (p1 p2 : genotype) (hlen : p2.length = p1.length)
    (hm : G.mutationRate = 1) (hascii : ∀ b ∈ p1, b < 128) (r : Rng) :
    makeChild G p1 p2 r =
      some ((List.range p1.length).map (fun t => (randASCII (r.drop (3 * t + 2))).1),
        r.drop (3 * p1.length)) := by
  have h := childLoop_mutated G p1 p2 hlen hm p1.length 0 [] r rfl (by omega)
  simp only [List.nil_append] at h
  rw [← List.range_eq_range'] at h
  rw [makeChild, rangeIndices_ascii p1 hascii, h]

/-- When a child is a function `F` of the random source alone and takes `w` draws, the
reproduction loop fills `children` with the values of `F` along the stream: each child
is preceded by the draw that picks its second parent. -/
theorem childrenLoop_determined (G : Globals) (population : pool) (best : genotype)
    (hpop : population.length = populationSize) (w : Nat) (F : Rng → genotype)
    (hmk : ∀ p2 ∈ population, ∀ r, makeChild G best p2 r = some (F r, r.drop w)) :
    ∀ (n j : Nat) (pre : pool) (r : Rng), pre.length = j →
      childrenLoop G population best (List.range' j n) (pre ++ List.replicate n []) r =
        some (pre ++ (List.range n).map (fun t => F (r.drop (t * (w + 1) + 1))),
          r.drop (n * (w + 1)))
  | 0, j, pre, r, _ => by
    simp only [List.range', List.replicate, childrenLoop, List.range_zero, List.map_nil,
      Nat.zero_mul]
    rfl
  | n + 1, j, pre, r, hj => by
    have hd : (randIntn populationSize r).1 < population.length := by
      rw [hpop]
      exact Nat.mod_lt _ (by decide)
    have hchild := hmk population[(randIntn populationSize r).1] (List.getElem_mem _)
      (r.drop 1)
    have hlt : j < (pre ++ List.replicate (n + 1) ([] : genotype)).length := by
      simp [hj]
    have hset : (pre ++ List.replicate (n + 1) ([] : genotype)).set j (F (r.drop 1))
        = (pre ++ [F (r.drop 1)]) ++ List.replicate n [] := by
      rw [← hj]
      simp [List.replicate_succ]
    have ih := childrenLoop_determined G population best hpop w F hmk n (j + 1)
      (pre ++ [F (r.drop 1)]) ((r.drop 1).drop w) (by simp [hj])
    have e0 : r.drop 1 = r.drop (0 * (w + 1) + 1) := by
      have e : 0 * (w + 1) + 1 = 1 := by omega
      rw [e]
    have e1 : ∀ t, ((r.drop 1).drop w).drop (t * (w + 1) + 1)
        = r.drop ((t + 1) * (w + 1) + 1) := by
      intro t
      have e : 1 + (w + (t * (w + 1) + 1)) = (t + 1) * (w + 1) + 1 := by ring
      rw [Rng.drop_drop, Rng.drop_drop, e]
    have hres : (pre ++ [F (r.drop 1)]) ++
          (List.range n).map (fun t => F (((r.drop 1).drop w).drop (t * (w + 1) + 1)))
        = pre ++ (List.range (n + 1)).map (fun t => F (r.drop (t * (w + 1) + 1))) := by
      rw [List.range_succ_eq_map, List.map_cons, List.map_map, List.append_assoc, ← e0]
      simp only [e1]
      rfl
    have hrng : ((r.drop 1).drop w).drop (n * (w + 1)) = r.drop ((n + 1) * (w + 1)) := by
      have e : 1 + (w + n * (w + 1)) = (n + 1) * (w + 1) := by ring
      rw [Rng.drop_drop, Rng.drop_drop, e]
    rw [← hres, ← hrng, ← ih]
    have htail : (randIntn populationSize r).2 = r.drop 1 := rfl
    simp only [List.range'_succ, childrenLoop, List.getElem?_eq_getElem hd, htail, hchild,
      if_pos hlt, hset]

/-- With a mutation rate of 1 the children of a good pool are a function of the random
source alone. -/
theorem reproduce_mutated (G : Globals) (population : pool) (best : genotype)
    (hp : GoodPool G population) (hbest : best ∈ population) (hm : G.mutationRate = 1)
    (r : Rng) :
    reproduce G population best r =
      some ((List.range populationSize).map (fun j =>
          (List.range G.input.length).map (fun k =>
            (randASCII ((r.drop (j * (3 * G.input.length + 1) + 1)).drop (3 * k + 2))).1)),
        r.drop (populationSize * (3 * G.input.length + 1))) := by
  have hb := hp.2 best hbest
  have h := childrenLoop_determined G population best hp.1 (3 * G.input.length)
    (fun r => (List.range G.input.length).map (fun k => (randASCII (r.drop (3 * k + 2))).1))
    (fun p2 hp2 r => by
      have := makeChild_mutated G best p2 ((hp.2 p2 hp2).1.trans hb.1.symm) hm hb.ascii r
      rw [hb.1] at this
      exact this)
    populationSize 0 [] r rfl
  simp only [List.nil_append] at h
  rw [← List.range_eq_range'] at h
  rw [reproduce, h]

/-- Without mutation every byte of every child is the byte of the best genotype or of
some member of the population at the same position. -/
theorem reproduce_unmutated (G : Globals) (population : pool) (best : genotype)
    (hp : GoodPool G population) (hbest : best ∈ population) (hm : G.mutationRate = 0)
    (r : Rng) :
    ∃ q r2, reproduce G population best r = some (q, r2) ∧
      ∀ ch ∈ q, ∃ p2 ∈ population, ch.length = best.length ∧
        ∀ k, k < ch.length → ch[k]? = best[k]? ∨ ch[k]? = p2[k]? := by
  have hb := hp.2 best hbest
  obtain ⟨q, r2, h1, _, h3⟩ := reproduce_spec G population best
    (fun ch => ∃ p2 ∈ population, ch.length = best.length ∧
        ∀ k, k < ch.length → ch[k]? = best[k]? ∨ ch[k]? = p2[k]?) hp.1
    (fun p2 hp2 r => by
      obtain ⟨ch, r2, hmk, hl, hbytes⟩ :=
        makeChild_spec G best p2 ((hp.2 p2 hp2).1.trans hb.1.symm) r
      refine ⟨ch, r2, hmk, p2, hp2, hl, ?_⟩
      intro k hk
      obtain ⟨v, hv, hsrc⟩ := hbytes hb.ascii k (hl ▸ hk)
      rcases hsrc with e | e | e
      · exact Or.inl (hv.trans e.symm)
      · exact Or.inr (hv.trans e.symm)
      · rw [hm] at e
        exact absurd e.1 (lt_irrefl _)) r
  exact ⟨q, r2, h1, h3⟩

/-- The state after `n + 1` passes comes from the state after `n` passes by a pass that
goes round again. -/
theorem afterPasses_succ (G : Globals) (srt : Sorter G) (r : Rng) (n : Nat) (t : State)
    (h : afterPasses G srt r (n + 1) = some t) :
    ∃ s, afterPasses G srt r n = some s ∧ loopBody G srt s = some (Outcome.again t) := by
  simp only [afterPasses] at h
  split at h
  · cases h
  · rename_i s0 hs0
    split at h
    · rename_i t0 ht0
      injection h with h
      subst h
      exact ⟨s0, hs0, ht0⟩
    · cases h

/-! ## Population size (C1) -/

/-- C1, as stated, fails: on the one-byte target `"Z"` the start-up succeeds and the
first population built by `main` holds 25 genotypes, not `len(target) = 1`. -/
theorem population_size_counterexample :
    init [90] 0 = Except.ok globalsZ ∧
      (mainStart globalsZ drawsA).map (fun s => s.population.length) = some 25 ∧
      (afterPasses globalsZ (insertionSorter globalsZ) drawsA 1).map
        (fun s => s.population.length) = some 25 ∧
      (25 : Nat) ≠ [90].length := by
  refine ⟨rfl, ?_, ?_, by decide⟩
  · with_unfolding_all rfl
  · with_unfolding_all rfl

/-- C1, amended: for every non-empty target the population size used by the engine is
the package constant 25, whatever the length of the target: the first population built
by `main` and every later population of children hold exactly 25 genotypes. -/
theorem population_size_is_constant (i : List Nat) (m : ℚ) (G : Globals) (srt : Sorter G)
    (s : State) (_hinit : init i m = Except.ok G) (hs : Reachable G srt s) :
    s.population.length = 25 :=
  (reachable_good G srt s hs).1

/-- C1, amended, on the run on `"Z"` with the draws `drawsA`, after one pass. -/
theorem population_size_is_constant_witness :
    ∃ s, afterPasses globalsZ (insertionSorter globalsZ) drawsA 1 = some s ∧
      s.population.length = 25 :=
  have h : (afterPasses globalsZ (insertionSorter globalsZ) drawsA 1).isSome = true := by
    with_unfolding_all rfl
  ⟨Option.get _ h, (Option.some_get h).symm,
    population_size_is_constant [90] 0 globalsZ (insertionSorter globalsZ) _ rfl
      (afterPasses_reachable _ _ _ 1 _ (Option.some_get h).symm)⟩

/-! ## Strings outside the data model -/

/-- On the string `"é"` (bytes `0xC3 0xA9`, which no genotype holds: the bytes of a
genotype lie in [32,122]) the `range` loops of `score` and `matches` visit index 0
only, so that the two methods need their receiver to be made of one-byte code points
to look at every position. -/
theorem range_loop_on_multibyte_string :
    rangeIndices [195, 169] = [0] ∧
      score globalsEacute [195, 169] = some (1 / 2) ∧
      matchesOf globalsEacute [195, 169] = some [124, 0] := by
  refine ⟨?_, ?_, ?_⟩
  · with_unfolding_all rfl
  · with_unfolding_all rfl
  · with_unfolding_all rfl

/-! ## The terminal check (C5) -/

/-- C5: in every run on a non-empty target, a pass of the loop stops exactly when the
population at its head holds the target.  When the target is in the population the
ranked best is the target and the pass ends at the `break` in that same generation,
with the sorted population left in place and no draw consumed; when it is not, the pass
goes round again with the generation counter advanced. -/
theorem loop_stops_iff_target_present (i : List Nat) (m : ℚ) (G : Globals)
    (srt : Sorter G) (s : State) (hinit : init i m = Except.ok G)
    (hs : Reachable G srt s) :
    ((∃ t, loopBody G srt s = some (Outcome.done t)) ↔ i ∈ s.population) ∧
      (i ∈ s.population → ∃ t, loopBody G srt s = some (Outcome.done t) ∧ t.fittest = i ∧
        t.generation = s.generation ∧ t.population = srt.sort s.population ∧
        t.rng = s.rng) ∧
      (i ∉ s.population → ∃ t, loopBody G srt s = some (Outcome.again t) ∧
        t.generation = s.generation + 1) := by
  obtain ⟨hpos, hin, hq, _⟩ := init_ok hinit
  subst hin
  have hp := reachable_good G srt s hs
  obtain ⟨best, out, hlast, _, _, hdone, hagain⟩ := loopBody_spec G srt s hp
  have hiff := best_eq_input_iff G srt s.population hp hq hpos best hlast
  have hyes : G.input ∈ s.population → ∃ t, loopBody G srt s = some (Outcome.done t) ∧
      t.fittest = G.input ∧ t.generation = s.generation ∧
      t.population = srt.sort s.population ∧ t.rng = s.rng := by
    intro hmem
    have hb := hiff.mpr hmem
    exact ⟨_, hdone hb, hb, rfl, rfl, rfl⟩
  have hno : G.input ∉ s.population → ∃ t, loopBody G srt s = some (Outcome.again t) ∧
      t.generation = s.generation + 1 := by
    intro hmem
    obtain ⟨children, r, _, _, hl⟩ := hagain (fun hb => hmem (hiff.mp hb))
    exact ⟨_, hl, rfl⟩
  refine ⟨⟨?_, fun hmem => ?_⟩, hyes, hno⟩
  · rintro ⟨t, ht⟩
    by_contra hmem
    obtain ⟨t2, ht2, _⟩ := hno hmem
    rw [ht] at ht2
    injection ht2 with ht2
    cases ht2
  · obtain ⟨t, ht, _⟩ := hyes hmem
    exact ⟨t, ht⟩

/-- C5 on the run on `"Z"` with the draws `drawsB`, whose first population holds the
target: the loop stops in generation 1. -/
theorem loop_stops_iff_target_present_witness :
    ∃ s, mainStart globalsZ drawsB = some s ∧ [90] ∈ s.population ∧
      ((∃ t, loopBody globalsZ (insertionSorter globalsZ) s = some (Outcome.done t)) ↔
        [90] ∈ s.population) :=
  have h : (mainStart globalsZ drawsB).isSome = true := by with_unfolding_all rfl
  have hs : mainStart globalsZ drawsB = some (Option.get _ h) := (Option.some_get h).symm
  have h0 : (Option.get (mainStart globalsZ drawsB) h).population[0]? = some [90] := by
    with_unfolding_all rfl
  have hmem : [90] ∈ (Option.get (mainStart globalsZ drawsB) h).population :=
    List.getElem?_mem h0
  ⟨Option.get _ h, hs, hmem,
    (loop_stops_iff_target_present [90] 0 globalsZ (insertionSorter globalsZ) _ rfl
      (Reachable.start drawsB _ hs)).1⟩

/-! ## Reproduction at the two extreme mutation rates (C6, C7) -/

/-- C6: with `mutationRate = 0`, in every pass of every run that reproduces, the
mutation test fails for every draw, and every child has, at every position `k`, the
byte of the ranked best or the byte of its second parent, a member of the current
population: no third byte value appears. -/
theorem no_mutation_child_bytes_from_parents (i : List Nat) (G : Globals) (srt : Sorter G)
    (s t : State) (hinit : init i 0 = Except.ok G) (hs : Reachable G srt s)
    (ht : loopBody G srt s = some (Outcome.again t)) :
    (∀ r, ¬ (randFloat64 r).1 < G.mutationRate) ∧
      ∃ best, (srt.sort s.population).getLast? = some best ∧
        ∀ ch ∈ t.population, ∃ p2 ∈ s.population, ch.length = best.length ∧
          ∀ k, k < ch.length → ch[k]? = best[k]? ∨ ch[k]? = p2[k]? := by
  obtain ⟨_, _, _, hm⟩ := init_ok hinit
  refine ⟨fun r => ?_, ?_⟩
  · rw [hm]
    exact not_lt.mpr (randFloat64_range r).1
  · have hp := (reachable_good G srt s hs).sort srt
    obtain ⟨best, out, hlast, _, _, hrep, _⟩ := loopBody_again G srt s t ht
    obtain ⟨q, r2, hq, hch⟩ := reproduce_unmutated G (srt.sort s.population) best hp
      (List.mem_of_getLast?_eq_some hlast) hm s.rng
    rw [hrep] at hq
    injection hq with hq
    injection hq with hq _
    subst hq
    refine ⟨best, hlast, fun ch hmem => ?_⟩
    obtain ⟨p2, hp2, h⟩ := hch ch hmem
    exact ⟨p2, (srt.perm _).mem_iff.mp hp2, h⟩

/-- C6 on the first pass of the run on `"Z"` with the draws `drawsA`. -/
theorem no_mutation_child_bytes_from_parents_witness :
    ∃ s t, mainStart globalsZ drawsA = some s ∧
      loopBody globalsZ (insertionSorter globalsZ) s = some (Outcome.again t) ∧
      ∃ best, ((insertionSorter globalsZ).sort s.population).getLast? = some best ∧
        ∀ ch ∈ t.population, ∃ p2 ∈ s.population, ch.length = best.length ∧
          ∀ k, k < ch.length → ch[k]? = best[k]? ∨ ch[k]? = p2[k]? :=
  have h1 : (afterPasses globalsZ (insertionSorter globalsZ) drawsA 1).isSome = true := by
    with_unfolding_all rfl
  have ht1 := (Option.some_get h1).symm
  have hst := afterPasses_succ globalsZ (insertionSorter globalsZ) drawsA 0 _ ht1
  Exists.elim hst fun s hs =>
    ⟨s, Option.get _ h1, hs.1, hs.2,
      (no_mutation_child_bytes_from_parents [90] globalsZ (insertionSorter globalsZ) _ _ rfl
        (Reachable.start drawsA _ hs.1) hs.2).2⟩

/-- C7: with `mutationRate = 1`, in every pass of every run that reproduces, the
mutation test succeeds for every draw, and the children are a function of the random
source alone: the byte at position `k` of child `j` is the byte returned by the call of
`randASCII` made for that position (the child starts after `j * (3 * len + 1)` draws,
one draw picks its second parent, and each position takes a crossover draw, a mutation
draw and the draw of `randASCII`).  Every such byte lies in [32,122]. -/
theorem full_mutation_children_from_randASCII (i : List Nat) (G : Globals)
    (srt : Sorter G) (s t : State) (hinit : init i 1 = Except.ok G)
    (hs : Reachable G srt s) (ht : loopBody G srt s = some (Outcome.again t)) :
    (∀ r, (randFloat64 r).1 < G.mutationRate) ∧
      t.population = (List.range 25).map (fun j =>
        (List.range i.length).map (fun k =>
          (randASCII ((s.rng.drop (j * (3 * i.length + 1) + 1)).drop (3 * k + 2))).1)) ∧
      ∀ g ∈ t.population, ∀ b ∈ g, 32 ≤ b ∧ b ≤ 122 := by
  obtain ⟨_, hin, _, hm⟩ := init_ok hinit
  subst hin
  have hp := (reachable_good G srt s hs).sort srt
  obtain ⟨best, out, hlast, _, _, hrep, _⟩ := loopBody_again G srt s t ht
  have hq := reproduce_mutated G (srt.sort s.population) best hp
    (List.mem_of_getLast?_eq_some hlast) hm s.rng
  rw [hrep] at hq
  injection hq with hq
  injection hq with hq _
  refine ⟨fun r => ?_, hq, ?_⟩
  · rw [hm]
    exact (randFloat64_range r).2
  · intro g hg b hb
    rw [hq] at hg
    obtain ⟨j, _, hj⟩ := List.mem_map.mp hg
    rw [← hj] at hb
    obtain ⟨k, _, hk⟩ := List.mem_map.mp hb
    rw [← hk]
    exact randASCII_range _

/-- C7 on the first pass of the run on `"Z"` with mutation rate 1 and the draws
`drawsA`. -/
theorem full_mutation_children_from_randASCII_witness :
    ∃ s t, mainStart globalsZmut drawsA = some s ∧
      loopBody globalsZmut (insertionSorter globalsZmut) s = some (Outcome.again t) ∧
      t.population = (List.range 25).map (fun j =>
        (List.range ([90] : List Nat).length).map (fun k =>
          (randASCII ((s.rng.drop (j * (3 * ([90] : List Nat).length + 1) + 1)).drop
            (3 * k + 2))).1)) :=
  have h1 : (afterPasses globalsZmut (insertionSorter globalsZmut) drawsA 1).isSome = true := by
    with_unfolding_all rfl
  have ht1 := (Option.some_get h1).symm
  have hst := afterPasses_succ globalsZmut (insertionSorter globalsZmut) drawsA 0 _ ht1
  Exists.elim hst fun s hs =>
    ⟨s, Option.get _ h1, hs.1, hs.2,
      (full_mutation_children_from_randASCII [90] globalsZmut (insertionSorter globalsZmut)
        _ _ rfl (Reachable.start drawsA _ hs.1) hs.2).2.1⟩

/-! ## Invariants of the population (C8, C9) and populate (C10) -/

/-- C8: reproduction preserves the population size.  In every run, the population at
the head of the loop after any number of passes has as many genotypes as the first
population; a pass from it ends without a panic, and when it goes round again the
children that replace the population are as many as the population they replace. -/
theorem reproduction_preserves_population_size (i : List Nat) (m : ℚ) (G : Globals)
    (srt : Sorter G) (r : Rng) (n : Nat) (s0 s : State) (_hinit : init i m = Except.ok G)
    (h0 : mainStart G r = some s0) (hn : afterPasses G srt r n = some s) :
    s.population.length = s0.population.length ∧
      (∃ o, loopBody G srt s = some o) ∧
      ∀ t, loopBody G srt s = some (Outcome.again t) →
        t.population.length = s.population.length := by
  have hs := afterPasses_reachable G srt r n s hn
  have hp := reachable_good G srt s hs
  have hp0 := reachable_good G srt s0 (Reachable.start r s0 h0)
  refine ⟨hp.1.trans hp0.1.symm, ?_, ?_⟩
  · obtain ⟨best, out, _, _, _, hdone, hagain⟩ := loopBody_spec G srt s hp
    by_cases hb : best = G.input
    · exact ⟨_, hdone hb⟩
    · obtain ⟨children, r2, _, _, hl⟩ := hagain hb
      exact ⟨_, hl⟩
  · intro t ht
    exact (reachable_good G srt t (Reachable.pass s t hs ht)).1.trans hp.1.symm

/-- C8 on the first pass of the run on `"Z"` with the draws `drawsA`. -/
theorem reproduction_preserves_population_size_witness :
    ∃ s t, mainStart globalsZ drawsA = some s ∧
      afterPasses globalsZ (insertionSorter globalsZ) drawsA 0 = some s ∧
      loopBody globalsZ (insertionSorter globalsZ) s = some (Outcome.again t) ∧
      t.population.length = s.population.length :=
  have h1 : (afterPasses globalsZ (insertionSorter globalsZ) drawsA 1).isSome = true := by
    with_unfolding_all rfl
  have ht1 := (Option.some_get h1).symm
  have hst := afterPasses_succ globalsZ (insertionSorter globalsZ) drawsA 0 _ ht1
  Exists.elim hst fun s hs =>
    ⟨s, Option.get _ h1, hs.1, hs.1, hs.2,
      (reproduction_preserves_population_size [90] 0 globalsZ (insertionSorter globalsZ)
        drawsA 0 s s rfl hs.1 hs.1).2.2 _ hs.2⟩

/-- C9: the length invariant.  In every run every genotype of every population, the
first one and every later one, has the length of the target; and a child built from two
parents of one length has that length, whatever the draws of crossover and mutation. -/
theorem genotype_length_invariant (i : List Nat) (m : ℚ) (G : Globals) (srt : Sorter G)
    (s : State) (hinit : init i m = Except.ok G) (hs : Reachable G srt s) :
    (∀ g ∈ s.population, g.length = i.length) ∧
      (∀ t, loopBody G srt s = some (Outcome.again t) →
        ∀ ch ∈ t.population, ∀ p ∈ s.population, ch.length = p.length) ∧
      ∀ (p1 p2 : genotype) (r : Rng), p2.length = p1.length →
        ∃ ch r2, makeChild G p1 p2 r = some (ch, r2) ∧ ch.length = p1.length ∧
          ch.length = p2.length := by
  obtain ⟨_, hin, _, _⟩ := init_ok hinit
  subst hin
  have hp := reachable_good G srt s hs
  refine ⟨fun g hg => (hp.2 g hg).1, ?_, ?_⟩
  · intro t ht ch hch p hpm
    have hpt := reachable_good G srt t (Reachable.pass s t hs ht)
    exact (hpt.2 ch hch).1.trans (hp.2 p hpm).1.symm
  · intro p1 p2 r hlen
    obtain ⟨ch, r2, hmk, hl, _⟩ := makeChild_spec G p1 p2 hlen r
    exact ⟨ch, r2, hmk, hl, hl.trans hlen.symm⟩

/-- C9 on the population after one pass of the run on `"Z"` with the draws `drawsA`. -/
theorem genotype_length_invariant_witness :
    ∃ s, afterPasses globalsZ (insertionSorter globalsZ) drawsA 1 = some s ∧
      ∀ g ∈ s.population, g.length = ([90] : List Nat).length :=
  have h1 : (afterPasses globalsZ (insertionSorter globalsZ) drawsA 1).isSome = true := by
    with_unfolding_all rfl
  have ht1 := (Option.some_get h1).symm
  ⟨Option.get _ h1, ht1,
    (genotype_length_invariant [90] 0 globalsZ (insertionSorter globalsZ) _ rfl
      (afterPasses_reachable _ _ _ 1 _ ht1)).1⟩

/-- C10: for every `populationSize`, every `strSize` and every sequence of draws,
`populate(populationSize, strSize)` returns exactly `populationSize` genotypes, each of
exactly `strSize` bytes, and every byte of every one of them lies in [32,122]. -/
theorem populate_shape (n strSize : Nat) (r : Rng) :
    (populate n strSize r).1.length = n ∧
      ∀ g ∈ (populate n strSize r).1, g.length = strSize ∧ ∀ b ∈ g, 32 ≤ b ∧ b ≤ 122 :=
  populate_spec n strSize r

/-! ## Start-up (C12) -/

/-- C12: with a missing or empty target `init` fails with the fatal error
`expected input string`, and the start-up ends with that error: no population is built
and the loop is not entered.  With a non-empty target `init` succeeds whatever the
mutation rate, and the start-up reaches the head of the loop. -/
theorem startup_fails_iff_empty_target (i : List Nat) (m : ℚ) (r : Rng) :
    (i = [] → init i m = Except.error "expected input string" ∧
      startup i m r = Except.error "expected input string") ∧
    (i ≠ [] → ∃ G s, init i m = Except.ok G ∧ G.input = i ∧ G.mutationRate = m ∧
      startup i m r = Except.ok (G, s) ∧ mainStart G r = some s) := by
  constructor
  · intro hi
    subst hi
    exact ⟨rfl, rfl⟩
  · intro hi
    have hlen : ¬ i.length = 0 := fun h => hi (List.length_eq_zero.mp h)
    have hinit : init i m
        = Except.ok { input := i, inputLen := (i.length : ℚ), mutationRate := m } := by
      unfold init
      rw [if_neg hlen]
    obtain ⟨s, hs, _⟩ := mainStart_good
      { input := i, inputLen := (i.length : ℚ), mutationRate := m } r
    refine ⟨_, s, hinit, rfl, rfl, ?_, hs⟩
    unfold startup
    rw [hinit]
    simp only [hs]

/-- C12 on the empty target and on the target `"Z"` with the mutation rate 7. -/
theorem startup_fails_iff_empty_target_witness :
    (init [] 7 = Except.error "expected input string" ∧
      startup [] 7 drawsA = Except.error "expected input string") ∧
    (∃ G s, init [90] 7 = Except.ok G ∧ G.input = [90] ∧ G.mutationRate = 7 ∧
      startup [90] 7 drawsA = Except.ok (G, s) ∧ mainStart G drawsA = some s) :=
  ⟨(startup_fails_iff_empty_target [] 7 drawsA).1 rfl,
    (startup_fails_iff_empty_target [90] 7 drawsA).2 (by decide)⟩

/-! ## The byte range (C15, C18, C19) -/

/-- C15: the byte-range invariant.  For every non-empty target, every mutation rate and
every sequence of draws, every byte of every genotype of every population of the run,
the first one and every later one, lies in [32,122]. -/
theorem byte_range_invariant (i : List Nat) (m : ℚ) (G : Globals) (srt : Sorter G)
    (s : State) (_hinit : init i m = Except.ok G) (hs : Reachable G srt s) :
    ∀ g ∈ s.population, ∀ b ∈ g, 32 ≤ b ∧ b ≤ 122 :=
  fun g hg => ((reachable_good G srt s hs).2 g hg).2

/-- C15 on the population after one pass of the run on `"Z"` with mutation rate 1. -/
theorem byte_range_invariant_witness :
    ∃ s, afterPasses globalsZmut (insertionSorter globalsZmut) drawsA 1 = some s ∧
      ∀ g ∈ s.population, ∀ b ∈ g, 32 ≤ b ∧ b ≤ 122 :=
  have h1 : (afterPasses globalsZmut (insertionSorter globalsZmut) drawsA 1).isSome
      = true := by
    with_unfolding_all rfl
  have ht1 := (Option.some_get h1).symm
  ⟨Option.get _ h1, ht1,
    byte_range_invariant [90] 1 globalsZmut (insertionSorter globalsZmut) _ rfl
      (afterPasses_reachable _ _ _ 1 _ ht1)⟩

/-- C18: `randASCII` produces exactly the 91 values of [32,122].  The result is
`n + 32` for the value `n` in [0,91) returned by `rand.Intn(123-32)`, the conversion to
a byte does not wrap, every byte of [32,122] is the result for exactly one such `n` and
for some draw, and no byte below 32 or above 122 (such as the three after `z`) is
produced. -/
theorem randASCII_exactly_printable (r : Rng) (n b : Nat) :
    (randIntn (123 - 32) r).1 < 91 ∧
    (randASCII r).1 = (randIntn (123 - 32) r).1 + 32 ∧
    (32 ≤ (randASCII r).1 ∧ (randASCII r).1 ≤ 122) ∧
    (n < 91 → (n + 32) % 256 = n + 32 ∧ 32 ≤ n + 32 ∧ n + 32 ≤ 122) ∧
    (32 ≤ b → b ≤ 122 → (∃! k, k < 91 ∧ (k + 32) % 256 = b) ∧
      ∃ r2 : Rng, (randASCII r2).1 = b) ∧
    (randASCII r).1 ≠ 123 ∧ (randASCII r).1 ≠ 124 ∧ (randASCII r).1 ≠ 125 := by
  have hr := randASCII_range r
  have hlt : (randIntn (123 - 32) r).1 < 91 := Nat.mod_lt _ (by decide)
  refine ⟨hlt, ?_, hr, ?_, ?_, by omega, by omega, by omega⟩
  · simp only [randASCII]
    omega
  · intro hn
    omega
  · intro h1 h2
    refine ⟨⟨b - 32, ⟨by omega, by omega⟩, ?_⟩, ⟨fun _ => ⟨b - 32, 0, 0⟩, ?_⟩⟩
    · rintro k ⟨hk1, hk2⟩
      omega
    · simp only [randASCII, randIntn]
      omega

/-- C18 at the draw 0 and the byte `z`. -/
theorem randASCII_exactly_printable_witness :
    ((0 + 32) % 256 = 0 + 32 ∧ 32 ≤ 0 + 32 ∧ 0 + 32 ≤ 122) ∧
    ((∃! k, k < 91 ∧ (k + 32) % 256 = 122) ∧ ∃ r2 : Rng, (randASCII r2).1 = 122) :=
  ⟨(randASCII_exactly_printable drawsA 0 122).2.2.2.1 (by decide),
    (randASCII_exactly_printable drawsA 0 122).2.2.2.2.1 (by decide) (by decide)⟩

/-- A pass from a population of a run that lacks the target does not stop. -/
theorem pass_continues (G : Globals) (srt : Sorter G) (s : State)
    (hreach : Reachable G srt s) (hni : G.input ∉ s.population) :
    (∀ best, (srt.sort s.population).getLast? = some best → best ≠ G.input) ∧
      (∀ t, loopBody G srt s ≠ some (Outcome.done t)) ∧
      ∃ t, loopBody G srt s = some (Outcome.again t) := by
  obtain ⟨best, out, hlast, hmem, _, _, hagain⟩ :=
    loopBody_spec G srt s (reachable_good G srt s hreach)
  have hne : best ≠ G.input := fun e => hni (e ▸ hmem)
  obtain ⟨children, r2, _, _, hl⟩ := hagain hne
  refine ⟨?_, ?_, ⟨_, hl⟩⟩
  · intro best2 h2
    rw [hlast] at h2
    injection h2 with h2
    exact h2 ▸ hne
  · intro t ht
    rw [hl] at ht
    injection ht with ht
    cases ht

/-- When no population of a run holds the target, the run reaches the head of the
loop after any number of passes. -/
theorem afterPasses_total (G : Globals) (srt : Sorter G) (r : Rng)
    (hnot : ∀ n s, afterPasses G srt r n = some s → G.input ∉ s.population) :
    ∀ n, ∃ s, afterPasses G srt r n = some s
  | 0 => by
    obtain ⟨s, hs, _⟩ := mainStart_good G r
    exact ⟨s, hs⟩
  | n + 1 => by
    obtain ⟨s, hs⟩ := afterPasses_total G srt r hnot n
    have hreach := afterPasses_reachable G srt r n s hs
    obtain ⟨_, _, t, ht⟩ := pass_continues G srt s hreach (hnot n s hs)
    refine ⟨t, ?_⟩
    simp only [afterPasses, hs, ht]

/-- C19: when the target holds a byte outside [32,122], then for every mutation rate,
every sequence of draws and every number of passes, the run reaches the head of the
loop after that many passes, no genotype of the population equals the target, the
ranked best is not the target, and the pass goes round again: the `break` is never
reached. -/
theorem unprintable_target_never_found (i : List Nat) (m : ℚ) (G : Globals)
    (srt : Sorter G) (r : Rng) (n : Nat) (hinit : init i m = Except.ok G)
    (hbad : ∃ b ∈ i, b < 32 ∨ 122 < b) :
    ∃ s, afterPasses G srt r n = some s ∧ i ∉ s.population ∧
      (∀ best, (srt.sort s.population).getLast? = some best → best ≠ i) ∧
      (∀ t, loopBody G srt s ≠ some (Outcome.done t)) ∧
      ∃ t, loopBody G srt s = some (Outcome.again t) := by
  obtain ⟨_, hin, _, _⟩ := init_ok hinit
  subst hin
  obtain ⟨b, hb, hbr⟩ := hbad
  have hnot : ∀ s, Reachable G srt s → G.input ∉ s.population := by
    intro s hs hmem
    have := ((reachable_good G srt s hs).2 _ hmem).2 b hb
    omega
  obtain ⟨s, hs⟩ := afterPasses_total G srt r
    (fun k t ht => hnot t (afterPasses_reachable G srt r k t ht)) n
  have hreach := afterPasses_reachable G srt r n s hs
  exact ⟨s, hs, hnot s hreach, pass_continues G srt s hreach (hnot s hreach)⟩

/-- C19 on the target made of an opening brace (byte 123), after one pass. -/
theorem unprintable_target_never_found_witness :
    ∃ s, afterPasses globalsBrace (insertionSorter globalsBrace) drawsA 1 = some s ∧
      [123] ∉ s.population ∧
      ∃ t, loopBody globalsBrace (insertionSorter globalsBrace) s = some (Outcome.again t) :=
  Exists.elim
    (unprintable_target_never_found [123] (1 / 100) globalsBrace
      (insertionSorter globalsBrace) drawsA 1 rfl ⟨123, by simp, by decide⟩)
    fun s hs => ⟨s, hs.1, hs.2.1, hs.2.2.2.2⟩

/-! ## Safety of the loop (C17) -/

/-- C17: once the loop has started on a non-empty target no operation fails.  The
statements before the loop run without a panic; at the head of the loop in every
generation the arguments of `rand.Intn` are positive, `inputLen` is not zero, the
population is not empty and has a last element,
the parent-B index is inside the population, every index visited by `score` and
`matches` is inside the genotype and the target, every index visited when a child is
built is inside both parents, all three end without a panic, and so does the pass. -/
theorem no_runtime_failure (i : List Nat) (m : ℚ) (G : Globals) (srt : Sorter G)
    (s : State) (hinit : init i m = Except.ok G) (hs : Reachable G srt s) :
    (∀ r, ∃ s0, mainStart G r = some s0) ∧
    (0 < populationSize ∧ 0 < 123 - 32) ∧
    G.inputLen ≠ 0 ∧
    s.population ≠ [] ∧
    (∃ best, (srt.sort s.population).getLast? = some best) ∧
    (∀ r, (randIntn populationSize r).1 < (srt.sort s.population).length) ∧
    (∀ g ∈ s.population,
      (∀ k ∈ rangeIndices g, k < g.length ∧ k < G.input.length) ∧
      (score G g).isSome = true ∧ (matchesOf G g).isSome = true) ∧
    (∀ p1 ∈ s.population, ∀ p2 ∈ s.population, ∀ r,
      (∀ k ∈ rangeIndices p1, k < p1.length ∧ k < p2.length) ∧
      (makeChild G p1 p2 r).isSome = true) ∧
    ∃ o, loopBody G srt s = some o := by
  obtain ⟨hpos, hin, hq, _⟩ := init_ok hinit
  subst hin
  have hp := reachable_good G srt s hs
  have hps := hp.sort srt
  obtain ⟨best, out, hlast, _, _, hdone, hagain⟩ := loopBody_spec G srt s hp
  refine ⟨fun r => ?_, ⟨by decide, by decide⟩, ?_, ?_, ⟨best, hlast⟩, fun r => ?_,
    fun g hg => ?_, fun p1 h1 p2 h2 r => ?_, ?_⟩
  · obtain ⟨s0, h0, _⟩ := mainStart_good G r
    exact ⟨s0, h0⟩
  · rw [hq]
    exact_mod_cast (Nat.pos_iff_ne_zero.mp hpos)
  · intro e
    have h25 := hp.1
    rw [e] at h25
    cases h25
  · rw [hps.1]
    exact Nat.mod_lt _ (by decide)
  · have hl := (hp.2 g hg).1
    obtain ⟨b, hb, _⟩ := matchesOf_spec G g hl
    refine ⟨fun k hk => ⟨rangeIndices_lt g k hk, hl ▸ rangeIndices_lt g k hk⟩, ?_, ?_⟩
    · rw [score_eq G g hl]
      rfl
    · rw [hb]
      rfl
  · have hl : p2.length = p1.length := (hp.2 p2 h2).1.trans (hp.2 p1 h1).1.symm
    obtain ⟨ch, r2, hmk, _⟩ := makeChild_spec G p1 p2 hl r
    refine ⟨fun k hk => ⟨rangeIndices_lt p1 k hk, hl ▸ rangeIndices_lt p1 k hk⟩, ?_⟩
    rw [hmk]
    rfl
  · by_cases hb : best = G.input
    · exact ⟨_, hdone hb⟩
    · obtain ⟨children, r2, _, _, hl⟩ := hagain hb
      exact ⟨_, hl⟩

/-- C17 on the population after one pass of the run on `"Z"` with the draws `drawsA`. -/
theorem no_runtime_failure_witness :
    ∃ s, afterPasses globalsZ (insertionSorter globalsZ) drawsA 1 = some s ∧
      s.population ≠ [] ∧ ∃ o, loopBody globalsZ (insertionSorter globalsZ) s = some o :=
  have h1 : (afterPasses globalsZ (insertionSorter globalsZ) drawsA 1).isSome = true := by
    with_unfolding_all rfl
  have ht1 := (Option.some_get h1).symm
  have hthm := no_runtime_failure [90] 0 globalsZ (insertionSorter globalsZ) _ rfl
    (afterPasses_reachable _ _ _ 1 _ ht1)
  ⟨Option.get _ h1, ht1, hthm.2.2.2.1, hthm.2.2.2.2.2.2.2.2⟩

/-! ## Ranking (C14) -/

/-- A call of `pool.Swap` that does not panic rearranges the pool. -/
theorem Swap_perm (p q : pool) (a b : Nat) (h : Swap p a b = some q) : q.Perm p := by
  unfold Swap at h
  split at h
  · rename_i x y hx hy
    injection h with h
    subst h
    obtain ⟨ha, hxa⟩ := List.getElem?_eq_some.mp hx
    obtain ⟨hb, hyb⟩ := List.getElem?_eq_some.mp hy
    rw [List.perm_iff_count]
    intro z
    have hb2 : b < (p.set a y).length := by simpa using hb
    have h1 := List.boole_getElem_le_countP (fun w : genotype => decide (w = z)) p a ha
    have h2 := List.boole_getElem_le_countP (fun w : genotype => decide (w = z)) p b hb
    have e1 := List.countP_set (fun w : genotype => decide (w = z)) (p.set a y) b x hb2
    have e2 := List.countP_set (fun w : genotype => decide (w = z)) p a y ha
    rw [List.getElem_set] at e1
    rw [hxa] at h1 e2
    rw [hyb] at h2
    simp only [hyb, ite_self] at e1
    simp only [List.count_eq_countP]
    have e3 : List.countP (fun w : genotype => decide (w = z)) ((p.set a y).set b x)
        = List.countP (fun w : genotype => decide (w = z)) p := by
      rw [e1, e2]
      generalize (if decide (x = z) = true then 1 else 0) = X at *
      generalize (if decide (y = z) = true then 1 else 0) = Y at *
      omega
    exact e3
  · cases h
/-- After the rank step the scores do not decrease along the pool. -/
theorem sorted_by_score (G : Globals) (srt : Sorter G) (p : pool)
    (hlen : ∀ g ∈ p, g.length = G.input.length) :
    List.Pairwise (fun a b => ∃ x y, score G a = some x ∧ score G b = some y ∧ x ≤ y)
      (srt.sort p) := by
  have hscores : ∀ g ∈ p, (score G g).isSome = true := by
    intro g hg
    rw [score_eq G g (hlen g hg)]
    rfl
  rw [List.pairwise_iff_getElem]
  intro a b ha hb hab
  have hsorted := srt.sorted p hscores a b hab hb
  obtain ⟨x, hx⟩ := Option.isSome_iff_exists.mp
    (hscores _ ((srt.perm p).mem_iff.mp (List.getElem_mem ha)))
  obtain ⟨y, hy⟩ := Option.isSome_iff_exists.mp
    (hscores _ ((srt.perm p).mem_iff.mp (List.getElem_mem hb)))
  refine ⟨x, y, hx, hy, ?_⟩
  simp only [Less, List.getElem?_eq_getElem ha, List.getElem?_eq_getElem hb, hx, hy,
    Option.some.injEq, decide_eq_false_iff_not, not_lt] at hsorted
  exact hsorted

/-- The last genotype of a ranked non-empty pool has a score at least that of every
member of the pool. -/
theorem best_has_max_score (G : Globals) (srt : Sorter G) (p : pool) (hne : p ≠ [])
    (hlen : ∀ g ∈ p, g.length = G.input.length) :
    ∃ best, (srt.sort p).getLast? = some best ∧ best ∈ p ∧
      ∀ g ∈ p, ∃ x y, score G g = some x ∧ score G best = some y ∧ x ≤ y := by
  have hne2 : srt.sort p ≠ [] := by
    intro e
    have hl := (srt.perm p).length_eq
    rw [e] at hl
    exact hne (List.length_eq_zero.mp hl.symm)
  have hpw := List.pairwise_iff_getElem.mp (sorted_by_score G srt p hlen)
  have hlastmem : (srt.sort p).getLast hne2 ∈ p :=
    (srt.perm p).mem_iff.mp (List.getLast_mem hne2)
  refine ⟨(srt.sort p).getLast hne2, List.getLast?_eq_getLast _ hne2, hlastmem, ?_⟩
  intro g hg
  obtain ⟨a, ha, hga⟩ := List.getElem_of_mem ((srt.perm p).mem_iff.mpr hg)
  have hpos : 0 < (srt.sort p).length := List.length_pos.mpr hne2
  rw [List.getLast_eq_getElem]
  by_cases hal : a = (srt.sort p).length - 1
  · subst hal
    rw [hga]
    exact ⟨_, _, score_eq G g (hlen g hg), score_eq G g (hlen g hg), le_refl _⟩
  · have h := hpw a ((srt.sort p).length - 1) ha (by omega) (by omega)
    rw [hga] at h
    exact h

/-- The inner loop of the rank procedure only rearranges the pool. -/
theorem sortInner_perm (G : Globals) :
    ∀ (j : Nat) (p q : pool), sortInner G j p = some q → q.Perm p
  | 0, p, q, h => by
    simp only [sortInner, Option.some.injEq] at h
    exact h ▸ List.Perm.refl _
  | j + 1, p, q, h => by
    simp only [sortInner] at h
    split at h
    · cases h
    · injection h with h
      exact h ▸ List.Perm.refl _
    · split at h
      · cases h
      · rename_i q1 hq1
        exact (sortInner_perm G j q1 q h).trans (Swap_perm p q1 (j + 1) j hq1)

/-- The rank procedure only rearranges the pool. -/
theorem sortOuter_perm (G : Globals) :
    ∀ (is : List Nat) (p q : pool), sortOuter G is p = some q → q.Perm p
  | [], p, q, h => by
    simp only [sortOuter, Option.some.injEq] at h
    exact h ▸ List.Perm.refl _
  | i :: is, p, q, h => by
    simp only [sortOuter] at h
    split at h
    · cases h
    · rename_i q1 hq1
      exact (sortOuter_perm G is q1 q h).trans (sortInner_perm G i p q1 hq1)

/-- The value of `Less` on two elements whose scores are defined. -/
theorem Less_eq (G : Globals) (p : pool) (a b : Nat) (x y : genotype)
    (hx : p[a]? = some x) (hy : p[b]? = some y)
    (hsx : (score G x).isSome = true) (hsy : (score G y).isSome = true) :
    Less G p a b = some (decide (rankKey G x < rankKey G y)) := by
  obtain ⟨u, hu⟩ := Option.isSome_iff_exists.mp hsx
  obtain ⟨v, hv⟩ := Option.isSome_iff_exists.mp hsy
  simp only [Less, hx, hy, hu, hv, rankKey, Option.getD_some]

/-- The inner loop of the rank procedure inserts the element that follows an ordered
front part into it, by calls of `Less` and `Swap`, and leaves the rest in place. -/
theorem sortInner_spec (G : Globals) :
    ∀ (j : Nat) (l : pool) (x : genotype) (r : pool), l.length = j →
      (∀ g ∈ l, (score G g).isSome = true) → (score G x).isSome = true →
      l.Pairwise (fun a b => rankKey G a ≤ rankKey G b) →
      ∃ l2, sortInner G j (l ++ x :: r) = some (l2 ++ r) ∧ l2.Perm (l ++ [x]) ∧
        l2.Pairwise (fun a b => rankKey G a ≤ rankKey G b)
  | 0, l, x, r, hl, _, _, _ => by
    have hnil : l = [] := List.length_eq_zero.mp hl
    subst hnil
    exact ⟨[x], by simp [sortInner], List.Perm.refl _, List.pairwise_singleton _ _⟩
  | j + 1, l, x, r, hl, hsl, hsx, hsorted => by
    rcases List.eq_nil_or_concat l with hnil | ⟨l0, y, hl0⟩
    · subst hnil
      simp at hl
    · rw [List.concat_eq_append] at hl0
      subst hl0
      have hl0len : l0.length = j := by simpa using hl
      have hsy : (score G y).isSome = true := hsl y (by simp)
      have hpx : (l0 ++ [y] ++ x :: r)[j + 1]? = some x := by
        rw [List.getElem?_append_right (by simp [hl0len])]
        simp [hl0len]
      have hpy : (l0 ++ [y] ++ x :: r)[j]? = some y := by
        rw [List.append_assoc, List.getElem?_append_right (by omega)]
        simp [hl0len]
      have hless := Less_eq G (l0 ++ [y] ++ x :: r) (j + 1) j x y hpx hpy hsx hsy
      have hsorted0 : l0.Pairwise (fun a b => rankKey G a ≤ rankKey G b) :=
        (List.pairwise_append.mp hsorted).1
      have hle0 : ∀ a ∈ l0, rankKey G a ≤ rankKey G y := fun a ha =>
        (List.pairwise_append.mp hsorted).2.2 a ha y (by simp)
      by_cases hlt : rankKey G x < rankKey G y
      · have hswap : Swap (l0 ++ [y] ++ x :: r) (j + 1) j = some (l0 ++ x :: (y :: r)) := by
          simp only [Swap, hpx, hpy]
          congr 1
          rw [← hl0len]
          simp
        obtain ⟨l2, h1, h2, h3⟩ := sortInner_spec G j l0 x (y :: r) hl0len
          (fun g hg => hsl g (by simp [hg])) hsx hsorted0
        refine ⟨l2 ++ [y], ?_, ?_, ?_⟩
        · simp only [sortInner, hless, hlt, decide_True, hswap, h1]
          simp
        · have hp : (l0 ++ [x] ++ [y]).Perm (l0 ++ [y] ++ [x]) := by
            rw [List.append_assoc, List.append_assoc]
            exact List.Perm.append_left _ (List.Perm.swap _ _ _)
          exact (List.Perm.append_right _ h2).trans hp
        · rw [List.pairwise_append]
          refine ⟨h3, List.pairwise_singleton _ _, ?_⟩
          intro a ha b hb
          rw [List.mem_singleton] at hb
          subst hb
          rcases List.mem_append.mp (h2.mem_iff.mp ha) with h | h
          · exact hle0 a h
          · rw [List.mem_singleton] at h
            subst h
            exact le_of_lt hlt
      · refine ⟨l0 ++ [y] ++ [x], ?_, List.Perm.refl _, ?_⟩
        · simp only [sortInner, hless, hlt, decide_False]
          simp
        · rw [List.pairwise_append]
          refine ⟨hsorted, List.pairwise_singleton _ _, ?_⟩
          intro a ha b hb
          rw [List.mem_singleton] at hb
          subst hb
          have hyx : rankKey G y ≤ rankKey G b := not_lt.mp hlt
          rcases List.mem_append.mp ha with h | h
          · exact le_trans (hle0 a h) hyx
          · rw [List.mem_singleton] at h
            subst h
            exact hyx

/-- The outer loop of the rank procedure, started behind an ordered front part, ends
with the whole pool ordered. -/
theorem sortOuter_spec (G : Globals) :
    ∀ (rest l : pool), (∀ g ∈ l ++ rest, (score G g).isSome = true) →
      l.Pairwise (fun a b => rankKey G a ≤ rankKey G b) →
      ∃ q, sortOuter G (List.range' l.length rest.length) (l ++ rest) = some q ∧
        q.Perm (l ++ rest) ∧ q.Pairwise (fun a b => rankKey G a ≤ rankKey G b)
  | [], l, _, hsorted => by
    refine ⟨l, ?_, by simp, hsorted⟩
    simp [sortOuter]
  | x :: r, l, hs, hsorted => by
    obtain ⟨l2, h1, h2, h3⟩ := sortInner_spec G l.length l x r rfl
      (fun g hg => hs g (by simp [hg])) (hs x (by simp)) hsorted
    have hlen2 : l2.length = l.length + 1 := by
      rw [h2.length_eq]
      simp
    obtain ⟨q, hq1, hq2, hq3⟩ := sortOuter_spec G r l2
      (fun g hg => by
        rcases List.mem_append.mp hg with h | h
        · rcases List.mem_append.mp (h2.mem_iff.mp h) with h | h
          · exact hs g (by simp [h])
          · exact hs g (by simp [List.mem_singleton.mp h])
        · exact hs g (by simp [h])) h3
    refine ⟨q, ?_, ?_, hq3⟩
    · simp only [List.length_cons, List.range'_succ, sortOuter, h1]
      rw [← hlen2]
      exact hq1
    · refine hq2.trans ?_
      have : (l2 ++ r).Perm ((l ++ [x]) ++ r) := List.Perm.append_right _ h2
      simpa using this

/-- The rank procedure on a pool whose scores are all defined: it ends, and its result
is a rearrangement of the pool in which the scores do not decrease. -/
theorem sortSort_spec (G : Globals) (p : pool)
    (hs : ∀ g ∈ p, (score G g).isSome = true) :
    ∃ q, sortSort G p = some q ∧ q.Perm p ∧
      q.Pairwise (fun a b => rankKey G a ≤ rankKey G b) := by
  cases p with
  | nil => exact ⟨[], by simp [sortSort, Len, sortOuter], List.Perm.refl _, List.Pairwise.nil⟩
  | cons x rest =>
    obtain ⟨q, h1, h2, h3⟩ := sortOuter_spec G rest [x] (by simpa using hs)
      (List.pairwise_singleton _ _)
    refine ⟨q, ?_, by simpa using h2, h3⟩
    simp only [sortSort, Len, List.length_cons, Nat.add_sub_cancel]
    simpa using h1

/-- The rank procedure meets the contract under which the loop of `main` is verified:
some `Sorter` returns, on every pool whose scores are defined, what the procedure
returns. -/
theorem sortSort_sorter (G : Globals) :
    ∃ srt : Sorter G, ∀ p : pool, (∀ g ∈ p, (score G g).isSome = true) →
      sortSort G p = some (srt.sort p) := by
  refine ⟨{ sort := fun p => (sortSort G p).getD p, perm := ?_, sorted := ?_ }, ?_⟩
  · intro p
    show List.Perm ((sortSort G p).getD p) p
    cases h : sortSort G p with
    | none => exact List.Perm.refl _
    | some q => exact sortOuter_perm G _ p q h
  · intro p hs a b hab hb
    obtain ⟨q, h1, h2, h3⟩ := sortSort_spec G p hs
    have hq : (sortSort G p).getD p = q := by rw [h1]; rfl
    show Less G ((sortSort G p).getD p) b a = some false
    have hb : b < ((sortSort G p).getD p).length := hb
    rw [hq] at hb ⊢
    have ha : a < q.length := by omega
    have hle := List.pairwise_iff_getElem.mp h3 a b ha hb hab
    rw [Less_eq G q b a q[b] q[a] (List.getElem?_eq_getElem hb) (List.getElem?_eq_getElem ha)
      (hs _ (h2.mem_iff.mp (List.getElem_mem hb)))
      (hs _ (h2.mem_iff.mp (List.getElem_mem ha)))]
    simpa using hle
  · intro p hs
    obtain ⟨q, h1, _, _⟩ := sortSort_spec G p hs
    show sortSort G p = some ((sortSort G p).getD p)
    rw [h1]
    rfl

/-- C14: ranking.  For every non-empty population of genotypes of the length of the
target, the rank step, run as a comparison sort that reads the pool through `Len` and
`Less` and rearranges it through `Swap` alone, ends with a population that is a
rearrangement of the population before it (as is the result of every `Swap`), of the
same `Len`, in which no later element is `Less` than an earlier one, so that the scores
do not decrease from one element to any later one, and in which the genotype selected
as best, the last one, has a score greater than or equal to that of every member.  The
same holds of every sort procedure that rearranges the pool and leaves no later
element `Less` than an earlier one, whatever order it leaves among ties; the procedure
above is one of them. -/
theorem ranking_puts_max_score_last (i : List Nat) (m : ℚ) (G : Globals) (p : pool)
    (hinit : init i m = Except.ok G) (hne : p ≠ [])
    (hlen : ∀ g ∈ p, g.length = i.length) :
    (∃ q, sortSort G p = some q ∧ q.Perm p ∧ Len q = Len p ∧
      (∀ a b, a < b → b < Len q → Less G q b a = some false) ∧
      List.Pairwise (fun a b => ∃ x y, score G a = some x ∧ score G b = some y ∧ x ≤ y) q ∧
      ∃ best, q.getLast? = some best ∧ best ∈ p ∧
        ∀ g ∈ p, ∃ x y, score G g = some x ∧ score G best = some y ∧ x ≤ y) ∧
    (∀ a b q, Swap p a b = some q → q.Perm p ∧ Len q = Len p) ∧
    (∀ srt : Sorter G, (srt.sort p).Perm p ∧ Len (srt.sort p) = Len p ∧
      List.Pairwise (fun a b => ∃ x y, score G a = some x ∧ score G b = some y ∧ x ≤ y)
        (srt.sort p) ∧
      ∃ best, (srt.sort p).getLast? = some best ∧ best ∈ p ∧
        ∀ g ∈ p, ∃ x y, score G g = some x ∧ score G best = some y ∧ x ≤ y) ∧
    (∃ srt : Sorter G, ∀ p2 : pool, (∀ g ∈ p2, (score G g).isSome = true) →
      sortSort G p2 = some (srt.sort p2)) := by
  obtain ⟨_, hin, _, _⟩ := init_ok hinit
  subst hin
  have hscores : ∀ g ∈ p, (score G g).isSome = true := by
    intro g hg
    rw [score_eq G g (hlen g hg)]
    rfl
  obtain ⟨srt0, hsrt0⟩ := sortSort_sorter G
  refine ⟨⟨srt0.sort p, hsrt0 p hscores, srt0.perm p, (srt0.perm p).length_eq,
      fun a b hab hb => srt0.sorted p hscores a b hab hb,
      sorted_by_score G srt0 p hlen, best_has_max_score G srt0 p hne hlen⟩,
    fun a b q h => ⟨Swap_perm p q a b h, (Swap_perm p q a b h).length_eq⟩,
    fun srt => ⟨srt.perm p, (srt.perm p).length_eq, sorted_by_score G srt p hlen,
      best_has_max_score G srt p hne hlen⟩,
    ⟨srt0, hsrt0⟩⟩

/-- C14 on the target `"AB"` and the pool `"AB"`, `"BA"`, `"AA"`, `"AB"`: the rank
procedure returns `"BA"`, `"AA"`, `"AB"`, `"AB"` (scores 0, 0.5, 1, 1) and the best is
`"AB"`. -/
theorem ranking_puts_max_score_last_witness :
    sortSort globalsAB [[65, 66], [66, 65], [65, 65], [65, 66]]
        = some [[66, 65], [65, 65], [65, 66], [65, 66]] ∧
      ∃ q, sortSort globalsAB [[65, 66], [66, 65], [65, 65], [65, 66]] = some q ∧
        q.Perm [[65, 66], [66, 65], [65, 65], [65, 66]] ∧
        (∀ a b, a < b → b < Len q → Less globalsAB q b a = some false) ∧
        ∃ best, q.getLast? = some best ∧ best ∈ [[65, 66], [66, 65], [65, 65], [65, 66]] ∧
          ∀ g ∈ [[65, 66], [66, 65], [65, 65], [65, 66]],
            ∃ x y, score globalsAB g = some x ∧ score globalsAB best = some y ∧ x ≤ y :=
  ⟨by with_unfolding_all rfl,
    Exists.elim (ranking_puts_max_score_last [65, 66] 0 globalsAB
      [[65, 66], [66, 65], [65, 65], [65, 66]] rfl (by simp) (by simp)).1
      fun q hq => ⟨q, hq.1, hq.2.1, hq.2.2.2.1, hq.2.2.2.2.2⟩⟩

/-! ## The generation counter and the reports (C11) -/

/-- The report step appends one record when its condition holds and nothing when it
does not. -/
theorem report_spec (G : Globals) (n : Nat) (g : genotype) (found : Bool)
    (out out2 : List Report) (h : report G n g found out = some out2) :
    ((n % 10 = 0 ∨ found = true) → ∃ rep : Report, out2 = out ++ [rep] ∧
      rep.generation = n ∧ rep.target = G.input ∧ rep.fittest = g ∧
      matchesOf G g = some rep.diff ∧ score G g = some rep.score) ∧
    (¬ (n % 10 = 0 ∨ found = true) → out2 = out) := by
  unfold report at h
  split at h
  · rename_i hc
    split at h
    · rename_i d sc hd hsc
      injection h with h
      exact ⟨fun _ => ⟨_, h.symm, rfl, rfl, rfl, hd, hsc⟩, fun hn => absurd hc hn⟩
    · cases h
  · rename_i hc
    injection h with h
    exact ⟨fun hy => absurd hy hc, fun _ => h.symm⟩

theorem afterPasses_zero (G : Globals) (srt : Sorter G) (r : Rng) :
    afterPasses G srt r 0 = mainStart G r := rfl

/-- The generation counter at the head of the loop after `n` passes is `n + 1`. -/
theorem afterPasses_generation (G : Globals) (srt : Sorter G) (r : Rng) (n : Nat)
    (s : State) (h : afterPasses G srt r n = some s) : s.generation = n + 1 := by
  induction n generalizing s with
  | zero =>
    obtain ⟨s0, h0, _, hg, _⟩ := mainStart_good G r
    rw [afterPasses_zero, h0] at h
    have e : s0 = s := Option.some.inj h
    rw [← e, hg]
  | succ k ih =>
    obtain ⟨s1, hs, ht⟩ := afterPasses_succ G srt r k s h
    obtain ⟨_, _, _, _, _, _, hgen, _⟩ := loopBody_again G srt s1 s ht
    rw [hgen, ih s1 hs]

/-- C11: the generation counter is 1 at the first pass and `n + 1` after `n`
non-terminal passes, a non-terminal pass leaving it one higher and the terminal pass
leaving it as it is; and the pass with generation number `g` appends exactly one report
(carrying `g`, the target, the ranked best, its `matches` and its score) if
`g % 10 == 0` or the ranked best equals the target, and no report otherwise.  The pass
is terminal exactly when the ranked best equals the target. -/
theorem generation_and_report_cadence (i : List Nat) (m : ℚ) (G : Globals)
    (srt : Sorter G) (r : Rng) (n : Nat) (s : State) (hinit : init i m = Except.ok G)
    (hn : afterPasses G srt r n = some s) :
    s.generation = n + 1 ∧
    ∃ best o, (srt.sort s.population).getLast? = some best ∧
      loopBody G srt s = some o ∧
      (best = i → o = Outcome.done o.state ∧ o.state.generation = s.generation) ∧
      (best ≠ i → o = Outcome.again o.state ∧ o.state.generation = s.generation + 1) ∧
      ((s.generation % 10 = 0 ∨ best = i) → ∃ rep : Report,
        o.state.out = s.out ++ [rep] ∧ rep.generation = s.generation ∧ rep.target = i ∧
        rep.fittest = best ∧ matchesOf G best = some rep.diff ∧
        score G best = some rep.score) ∧
      (¬ (s.generation % 10 = 0 ∨ best = i) → o.state.out = s.out) := by
  obtain ⟨_, hin, _, _⟩ := init_ok hinit
  subst hin
  have hreach := afterPasses_reachable G srt r n s hn
  obtain ⟨best, out, hlast, _, hrep, hdone, hagain⟩ :=
    loopBody_spec G srt s (reachable_good G srt s hreach)
  obtain ⟨hyes, hno⟩ := report_spec G s.generation best _ s.out out hrep
  have hcond : (s.generation % 10 = 0 ∨ decide (best = G.input) = true) ↔
      (s.generation % 10 = 0 ∨ best = G.input) := by simp
  refine ⟨afterPasses_generation G srt r n s hn, best, ?_⟩
  by_cases hb : best = G.input
  · exact ⟨_, hlast, hdone hb, fun _ => ⟨rfl, rfl⟩, fun h => absurd hb h,
      fun hc => hyes (hcond.mpr hc), fun hc => hno (fun h => hc (hcond.mp h))⟩
  · obtain ⟨children, r2, _, _, hl⟩ := hagain hb
    exact ⟨_, hlast, hl, fun h => absurd h hb, fun _ => ⟨rfl, rfl⟩,
      fun hc => hyes (hcond.mpr hc), fun hc => hno (fun h => hc (hcond.mp h))⟩

/-- C11 on the run on `"Z"` with the draws `drawsB`: the first pass has generation 1,
finds the target and is reported although 1 is not a multiple of 10. -/
theorem generation_and_report_cadence_witness :
    ∃ s, afterPasses globalsZ (insertionSorter globalsZ) drawsB 0 = some s ∧
      s.generation = 0 + 1 ∧
      ∃ best o, ((insertionSorter globalsZ).sort s.population).getLast? = some best ∧
        loopBody globalsZ (insertionSorter globalsZ) s = some o ∧
        (best = [90] → o = Outcome.done o.state ∧ o.state.generation = s.generation) :=
  have h0 : (afterPasses globalsZ (insertionSorter globalsZ) drawsB 0).isSome = true := by
    with_unfolding_all rfl
  have hs := (Option.some_get h0).symm
  have hthm := generation_and_report_cadence [90] 0 globalsZ (insertionSorter globalsZ)
    drawsB 0 _ rfl hs
  ⟨Option.get _ h0, hs, hthm.1,
    Exists.elim hthm.2 fun best hb => Exists.elim hb fun o ho =>
      ⟨best, o, ho.1, ho.2.1, ho.2.2.1⟩⟩

/-! ## The alleles of a run without mutation (C16) -/

/-- Without mutation every byte of a child is the byte of a member of the population
it comes from, at the same position. -/
theorem alleles_step (G : Globals) (srt : Sorter G) (s t : State)
    (hm : G.mutationRate = 0) (hs : Reachable G srt s)
    (ht : loopBody G srt s = some (Outcome.again t)) :
    ∀ g ∈ t.population, ∀ k, k < g.length → ∃ g0 ∈ s.population, g[k]? = g0[k]? := by
  have hp := (reachable_good G srt s hs).sort srt
  obtain ⟨best, out, hlast, _, _, hrep, _⟩ := loopBody_again G srt s t ht
  have hbest := List.mem_of_getLast?_eq_some hlast
  obtain ⟨q, r2, hq, hch⟩ := reproduce_unmutated G (srt.sort s.population) best hp
    hbest hm s.rng
  rw [hrep] at hq
  injection hq with hq
  injection hq with hq _
  subst hq
  intro g hg k hk
  obtain ⟨p2, hp2, _, hbytes⟩ := hch g hg
  rcases hbytes k hk with e | e
  · exact ⟨best, (srt.perm _).mem_iff.mp hbest, e⟩
  · exact ⟨p2, (srt.perm _).mem_iff.mp hp2, e⟩

/-- Without mutation every byte of every genotype of every population of a run is the
byte of a genotype of the first population at the same position. -/
theorem alleles_from_start (G : Globals) (srt : Sorter G) (r : Rng) (s0 : State)
    (hm : G.mutationRate = 0) (h0 : mainStart G r = some s0) (n : Nat) (s : State)
    (hn : afterPasses G srt r n = some s) :
    ∀ g ∈ s.population, ∀ k, k < g.length → ∃ g0 ∈ s0.population, g[k]? = g0[k]? := by
  induction n generalizing s with
  | zero =>
    rw [afterPasses_zero, h0] at hn
    have e : s0 = s := Option.some.inj hn
    subst e
    exact fun g hg k _ => ⟨g, hg, rfl⟩
  | succ j ih =>
    obtain ⟨s1, hs1, ht⟩ := afterPasses_succ G srt r j s hn
    have hreach := afterPasses_reachable G srt r j s1 hs1
    intro g hg k hk
    obtain ⟨g1, hg1, e1⟩ := alleles_step G srt s1 s hm hreach ht g hg k hk
    have hlen : g1.length = g.length :=
      ((reachable_good G srt s1 hreach).2 g1 hg1).1.trans
        ((reachable_good G srt s (Reachable.pass s1 s hreach ht)).2 g hg).1.symm
    obtain ⟨g0, hg0, e0⟩ := ih s1 hs1 g1 hg1 k (hlen ▸ hk)
    exact ⟨g0, hg0, e1.trans e0⟩

/-- C16: with `mutationRate = 0`, in every run, every byte of every genotype of the
population of every generation occurs at the same position in some genotype of the
first population.  So when the byte of the target at some position occurs at that
position in no genotype of the first population, no population of the run holds the
target and the run goes on for ever: after any number of passes the loop is at its
head and the pass goes round again. -/
theorem no_mutation_alleles_from_first_population (i : List Nat) (G : Globals)
    (srt : Sorter G) (r : Rng) (s0 : State) (n : Nat) (s : State)
    (hinit : init i 0 = Except.ok G) (h0 : mainStart G r = some s0)
    (hn : afterPasses G srt r n = some s) :
    (∀ g ∈ s.population, ∀ k, k < g.length → ∃ g0 ∈ s0.population, g[k]? = g0[k]?) ∧
    ((∃ k, k < i.length ∧ ∀ g0 ∈ s0.population, g0[k]? ≠ i[k]?) →
      ∀ j, ∃ s1, afterPasses G srt r j = some s1 ∧ i ∉ s1.population ∧
        (∀ t, loopBody G srt s1 ≠ some (Outcome.done t)) ∧
        ∃ t, loopBody G srt s1 = some (Outcome.again t)) := by
  obtain ⟨_, hin, _, hm⟩ := init_ok hinit
  subst hin
  refine ⟨alleles_from_start G srt r s0 hm h0 n s hn, ?_⟩
  rintro ⟨k, hk, habs⟩ j
  have hnot : ∀ j s1, afterPasses G srt r j = some s1 → G.input ∉ s1.population := by
    intro j s1 hs1 hmem
    obtain ⟨g0, hg0, e⟩ := alleles_from_start G srt r s0 hm h0 j s1 hs1 G.input hmem k hk
    exact habs g0 hg0 e.symm
  obtain ⟨s1, hs1⟩ := afterPasses_total G srt r hnot j
  have hreach := afterPasses_reachable G srt r j s1 hs1
  obtain ⟨_, h2, h3⟩ := pass_continues G srt s1 hreach (hnot j s1 hs1)
  exact ⟨s1, hs1, hnot j s1 hs1, h2, h3⟩

/-- C16 on the run on `"Z"` with the draws `drawsA`, whose first population lacks the
byte `Z`: after one pass every byte comes from the first population, and after 1000
passes the loop is still running. -/
theorem no_mutation_alleles_from_first_population_witness :
    ∃ s0 s, mainStart globalsZ drawsA = some s0 ∧
      afterPasses globalsZ (insertionSorter globalsZ) drawsA 1 = some s ∧
      (∀ g ∈ s.population, ∀ k, k < g.length → ∃ g0 ∈ s0.population, g[k]? = g0[k]?) ∧
      ∃ s1, afterPasses globalsZ (insertionSorter globalsZ) drawsA 1000 = some s1 ∧
        [90] ∉ s1.population :=
  have h0 : (mainStart globalsZ drawsA).isSome = true := by with_unfolding_all rfl
  have h1 : (afterPasses globalsZ (insertionSorter globalsZ) drawsA 1).isSome = true := by
    with_unfolding_all rfl
  have hs0 := (Option.some_get h0).symm
  have ht1 := (Option.some_get h1).symm
  have hall : ((Option.get _ h0).population.all
      (fun g0 => decide (g0[0]? ≠ ([90] : List Nat)[0]?))) = true := by
    with_unfolding_all rfl
  have hthm := no_mutation_alleles_from_first_population [90] globalsZ
    (insertionSorter globalsZ) drawsA _ 1 _ rfl hs0 ht1
  ⟨Option.get _ h0, Option.get _ h1, hs0, ht1, hthm.1,
    Exists.elim (hthm.2 ⟨0, by decide, fun g0 hg0 =>
        of_decide_eq_true (List.all_eq_true.mp hall g0 hg0)⟩ 1000)
      fun s1 hs1 => ⟨s1, hs1.1, hs1.2.1⟩⟩

/-! ## The per-byte reproduction rule (C13) -/

/-- One turn of the loop that builds a child writes the byte given by `positionByte`
for the draws at the head of the stream and leaves the stream at `turnEnd`. -/
theorem childLoop_cons_exact (G : Globals) (p1 p2 : genotype)
    (hlen : p2.length = p1.length) (i : Nat) (hi : i < p1.length) (is child : List Nat)
    (r : Rng) :
    ∃ v, positionByte G p1 p2 i r = some v ∧
      childLoop G p1 p2 (i :: is) child r
        = childLoop G p1 p2 is (child.set i v) (turnEnd G r) := by
  have hi2 : i < p2.length := by omega
  have e1 : (randFloat64 r).2 = r.drop 1 := rfl
  have e2 : (randFloat64 (r.drop 1)).2 = r.drop 2 := rfl
  have e3 : (randASCII (r.drop 2)).2 = r.drop 3 := rfl
  by_cases hm : (randFloat64 (r.drop 1)).1 < G.mutationRate
  · refine ⟨(randASCII (r.drop 2)).1, by simp only [positionByte, if_pos hm], ?_⟩
    by_cases hc : (randFloat64 r).1 > crossoverThreshold
    · simp only [childLoop, turnEnd, e1, e2, e3, hc, hm, if_true,
        List.getElem?_eq_getElem hi, List.set_set]
    · simp only [childLoop, turnEnd, e1, e2, e3, hc, hm, if_true, if_false,
        List.getElem?_eq_getElem hi2, List.set_set]
  · by_cases hc : (randFloat64 r).1 > crossoverThreshold
    · refine ⟨p1[i], by
        simp only [positionByte, if_neg hm, if_pos hc, List.getElem?_eq_getElem hi], ?_⟩
      simp only [childLoop, turnEnd, e1, e2, hc, hm, if_true, if_false,
        List.getElem?_eq_getElem hi]
    · refine ⟨p2[i], by
        simp only [positionByte, if_neg hm, if_neg hc, List.getElem?_eq_getElem hi2], ?_⟩
      simp only [childLoop, turnEnd, e1, e2, hc, hm, if_false,
        List.getElem?_eq_getElem hi2]

/-- The loop that builds a child, over the positions from `k` on: position `k + t`
receives the byte given by `positionByte` for the draws made in its own turn, which
starts on `positionStream G t r`, and the loop leaves the stream where the last turn
ends. -/
theorem childLoop_exact (G : Globals) (p1 p2 : genotype) (hlen : p2.length = p1.length) :
    ∀ (n k : Nat) (pre : List Nat) (r : Rng), pre.length = k → k + n ≤ p1.length →
      ∃ body, childLoop G p1 p2 (List.range' k n) (pre ++ List.replicate n 0) r
          = some (pre ++ body, positionStream G n r) ∧ body.length = n ∧
        ∀ t, t < n → body[t]? = positionByte G p1 p2 (k + t) (positionStream G t r)
  | 0, k, pre, r, _, _ => by
    refine ⟨[], ?_, rfl, fun t ht => absurd ht (Nat.not_lt_zero t)⟩
    simp only [List.range', List.replicate, childLoop, positionStream]
  | n + 1, k, pre, r, hk, hkn => by
    obtain ⟨v, hv, hstep⟩ := childLoop_cons_exact G p1 p2 hlen k (by omega)
      (List.range' (k + 1) n) (pre ++ List.replicate (n + 1) 0) r
    have hset : (pre ++ List.replicate (n + 1) 0).set k v
        = (pre ++ [v]) ++ List.replicate n 0 := by
      rw [← hk]
      simp [List.replicate_succ]
    obtain ⟨body, h1, h2, h3⟩ := childLoop_exact G p1 p2 hlen n (k + 1) (pre ++ [v])
      (turnEnd G r) (by simp [hk]) (by omega)
    refine ⟨v :: body, ?_, by simp [h2], ?_⟩
    · rw [List.range'_succ, hstep, hset, h1]
      simp [positionStream]
    · intro t ht
      cases t with
      | zero => simpa [positionStream] using hv.symm
      | succ t =>
        have h := h3 t (by omega)
        have e : k + 1 + t = k + (t + 1) := by omega
        rw [e] at h
        simpa [positionStream] using h

/-- A child of an ASCII first parent and a second parent of the same length: every
position holds the byte given by `positionByte` for the draws made in its own turn. -/
theorem makeChild_exact (G : Globals) (p1 p2 : genotype) (hlen : p2.length = p1.length)
    (hascii : ∀ b ∈ p1, b < 128) (r : Rng) :
    ∃ ch, makeChild G p1 p2 r = some (ch, positionStream G p1.length r) ∧
      ch.length = p1.length ∧
      ∀ k, k < p1.length → ch[k]? = positionByte G p1 p2 k (positionStream G k r) := by
  obtain ⟨body, h1, h2, h3⟩ := childLoop_exact G p1 p2 hlen p1.length 0 [] r rfl (by omega)
  simp only [List.nil_append] at h1
  rw [← List.range_eq_range'] at h1
  refine ⟨body, by rw [makeChild, rangeIndices_ascii p1 hascii, h1], h2, ?_⟩
  intro k hk
  have h := h3 k hk
  rw [Nat.zero_add] at h
  exact h

/-- The reproduction loop over the slots from `j` on: slot `j + t` receives the child
built in its own turn, which starts on `childStream G best.length t r` with the draw
that picks the second parent, and the loop leaves the stream where the last turn
ends. -/
theorem childrenLoop_exact (G : Globals) (population : pool) (best : genotype)
    (hpop : population.length = populationSize)
    (hlens : ∀ p2 ∈ population, p2.length = best.length)
    (hascii : ∀ b ∈ best, b < 128) :
    ∀ (n j : Nat) (pre : pool) (r : Rng), pre.length = j →
      ∃ body, childrenLoop G population best (List.range' j n)
          (pre ++ List.replicate n []) r
          = some (pre ++ body, childStream G best.length n r) ∧ body.length = n ∧
        ∀ t, t < n → ∃ p2 ch,
          population[(randIntn populationSize (childStream G best.length t r)).1]?
            = some p2 ∧
          body[t]? = some ch ∧ ch.length = best.length ∧
          ∀ k, k < best.length → ch[k]? = positionByte G best p2 k
            (positionStream G k ((childStream G best.length t r).drop 1))
  | 0, j, pre, r, _ => by
    refine ⟨[], ?_, rfl, fun t ht => absurd ht (Nat.not_lt_zero t)⟩
    simp only [List.range', List.replicate, childrenLoop, childStream]
  | n + 1, j, pre, r, hj => by
    have hd : (randIntn populationSize r).1 < population.length := by
      rw [hpop]
      exact Nat.mod_lt _ (by decide)
    obtain ⟨ch, hmk, hchlen, hbytes⟩ := makeChild_exact G best
      population[(randIntn populationSize r).1] (hlens _ (List.getElem_mem _)) hascii
      (r.drop 1)
    have hlt : j < (pre ++ List.replicate (n + 1) ([] : genotype)).length := by
      simp [hj]
    have hset : (pre ++ List.replicate (n + 1) ([] : genotype)).set j ch
        = (pre ++ [ch]) ++ List.replicate n [] := by
      rw [← hj]
      simp [List.replicate_succ]
    obtain ⟨body, h1, h2, h3⟩ := childrenLoop_exact G population best hpop hlens hascii n
      (j + 1) (pre ++ [ch]) (childEnd G best.length r) (by simp [hj])
    have htail : (randIntn populationSize r).2 = r.drop 1 := rfl
    refine ⟨ch :: body, ?_, by simp [h2], ?_⟩
    · simp only [List.range'_succ, childrenLoop, List.getElem?_eq_getElem hd, htail, hmk,
        if_pos hlt, hset]
      rw [childEnd] at h1
      rw [h1]
      simp [childStream, childEnd]
    · intro t ht
      cases t with
      | zero =>
        exact ⟨population[(randIntn populationSize r).1], ch,
          by simp only [childStream, List.getElem?_eq_getElem hd],
          by simp, hchlen,
          fun k hk => by simpa only [childStream] using hbytes k hk⟩
      | succ t =>
        obtain ⟨p2, ch2, hp2, hb2, hl2, hk2⟩ := h3 t (by omega)
        exact ⟨p2, ch2, by simpa only [childStream] using hp2, by simpa using hb2, hl2,
          fun k hk => by simpa only [childStream] using hk2 k hk⟩

/-- Reproduction from a good pool: child `j` is built in its own turn of the
reproduction loop, from the ranked best and the member of the pool picked by the first
draw of the turn, and each of its bytes is given by `positionByte` for the draws made
in the turn of its position. -/
theorem reproduce_exact (G : Globals) (population : pool) (best : genotype)
    (hp : GoodPool G population) (hbest : best ∈ population) (r : Rng) :
    ∃ q, reproduce G population best r
        = some (q, childStream G G.input.length populationSize r) ∧
      q.length = populationSize ∧
      ∀ j, j < populationSize → ∃ p2 ch,
        population[(randIntn populationSize (childStream G G.input.length j r)).1]?
          = some p2 ∧
        q[j]? = some ch ∧ ch.length = G.input.length ∧
        ∀ k, k < G.input.length → ch[k]? = positionByte G best p2 k
          (positionStream G k ((childStream G G.input.length j r).drop 1)) := by
  have hb := hp.2 best hbest
  obtain ⟨body, h1, h2, h3⟩ := childrenLoop_exact G population best hp.1
    (fun p2 hp2 => (hp.2 p2 hp2).1.trans hb.1.symm) hb.ascii populationSize 0 [] r rfl
  simp only [List.nil_append] at h1
  rw [← List.range_eq_range', hb.1] at h1
  rw [hb.1] at h3
  exact ⟨body, h1, h2, h3⟩

/-- C13: the per-byte reproduction rule.  In every reproducing pass of every run the
new population holds `populationSize` children, and child `j` is built in turn `j` of
the reproduction loop: the first draw of the turn, `rand.Intn(populationSize)`, picks
parent B in the current (ranked, pre-replacement) population, and then each position
`k` has a turn of its own in which the crossover draw `c` is made first and the
mutation draw `m` second, both in [0,1).  The byte of the child at `k` is the byte
returned by the `randASCII` call that follows the two draws if `m < mutationRate`, and
otherwise the byte of the ranked best at `k` if `c > .2` and the byte of parent B at
`k` if not (`.2` being the `float64` constant of the source).  The mutation test comes
after the crossover and overrides the byte of either parent; the draws of a position
follow those of the position before it, the draws of a child those of the child
before it, and the pass leaves the random source after the draws of the last child. -/
theorem per_byte_reproduction_rule (i : List Nat) (m : ℚ) (G : Globals) (srt : Sorter G)
    (s t : State) (hinit : init i m = Except.ok G) (hs : Reachable G srt s)
    (ht : loopBody G srt s = some (Outcome.again t)) :
    ∃ best, (srt.sort s.population).getLast? = some best ∧
      t.population.length = populationSize ∧
      t.rng = childStream G i.length populationSize s.rng ∧
      ∀ j, j < populationSize → ∃ p2 ch,
        (srt.sort s.population)[(randIntn populationSize
          (childStream G i.length j s.rng)).1]? = some p2 ∧
        p2 ∈ s.population ∧ t.population[j]? = some ch ∧ ch.length = i.length ∧
        ∀ k, k < i.length →
          (0 ≤ (randFloat64 (positionStream G k
              ((childStream G i.length j s.rng).drop 1))).1 ∧
            (randFloat64 (positionStream G k
              ((childStream G i.length j s.rng).drop 1))).1 < 1) ∧
          (0 ≤ (randFloat64 ((positionStream G k
              ((childStream G i.length j s.rng).drop 1)).drop 1)).1 ∧
            (randFloat64 ((positionStream G k
              ((childStream G i.length j s.rng).drop 1)).drop 1)).1 < 1) ∧
          ch[k]? =
            if (randFloat64 ((positionStream G k
                ((childStream G i.length j s.rng).drop 1)).drop 1)).1 < G.mutationRate
            then some (randASCII ((positionStream G k
                ((childStream G i.length j s.rng).drop 1)).drop 2)).1
            else if (randFloat64 (positionStream G k
                ((childStream G i.length j s.rng).drop 1))).1 > crossoverThreshold
              then best[k]? else p2[k]? := by
  obtain ⟨_, hin, _, _⟩ := init_ok hinit
  subst hin
  have hp := (reachable_good G srt s hs).sort srt
  obtain ⟨best, out, hlast, _, _, hrep, _⟩ := loopBody_again G srt s t ht
  obtain ⟨q, hq, hqlen, hch⟩ := reproduce_exact G (srt.sort s.population) best hp
    (List.mem_of_getLast?_eq_some hlast) s.rng
  rw [hrep] at hq
  injection hq with hq
  injection hq with hq1 hq2
  subst hq1
  refine ⟨best, hlast, hqlen, hq2, fun j hj => ?_⟩
  obtain ⟨p2, ch, hp2, hcj, hl, hbytes⟩ := hch j hj
  refine ⟨p2, ch, hp2, (srt.perm _).mem_iff.mp (List.getElem?_mem hp2), hcj, hl,
    fun k hk => ⟨randFloat64_range _, randFloat64_range _, ?_⟩⟩
  rw [hbytes k hk]
  simp only [positionByte]

/-- C13 on the first pass of the run on `"AB"` without mutation and with the draws
`drawsA`, whose first population lacks the target; and on one child of the parents
`"AA"` and `"BB"` without mutation, built on draws whose crossover draw is 0 for
position 0 and 2/5 for position 1: the child is `"BA"`, each position following its own
draw. -/
theorem per_byte_reproduction_rule_witness :
    (∃ s t best, mainStart globalsAB drawsA = some s ∧
      loopBody globalsAB (insertionSorter globalsAB) s = some (Outcome.again t) ∧
      ((insertionSorter globalsAB).sort s.population).getLast? = some best ∧
      t.population.length = populationSize ∧
      t.rng = childStream globalsAB ([65, 66] : List Nat).length populationSize s.rng ∧
      ∀ j, j < populationSize → ∃ p2 ch,
        ((insertionSorter globalsAB).sort s.population)[(randIntn populationSize
          (childStream globalsAB ([65, 66] : List Nat).length j s.rng)).1]? = some p2 ∧
        p2 ∈ s.population ∧ t.population[j]? = some ch ∧
        ch.length = ([65, 66] : List Nat).length ∧
        ∀ k, k < ([65, 66] : List Nat).length →
          ch[k]? =
            if (randFloat64 ((positionStream globalsAB k
                ((childStream globalsAB ([65, 66] : List Nat).length j s.rng).drop 1)).drop
                  1)).1 < globalsAB.mutationRate
            then some (randASCII ((positionStream globalsAB k
                ((childStream globalsAB ([65, 66] : List Nat).length j s.rng).drop 1)).drop
                  2)).1
            else if (randFloat64 (positionStream globalsAB k
                ((childStream globalsAB ([65, 66] : List Nat).length j s.rng).drop 1))).1
                  > crossoverThreshold
              then best[k]? else p2[k]?) ∧
    (makeChild globalsAB [65, 65] [66, 66] drawsC).map Prod.fst = some [66, 65] ∧
    (randFloat64 (positionStream globalsAB 0 drawsC)).1 = 0 ∧
    (randFloat64 (positionStream globalsAB 1 drawsC)).1 = 2 / 5 :=
  have h : (mainStart globalsAB drawsA).isSome = true := by with_unfolding_all rfl
  have hs := (Option.some_get h).symm
  have hall : ((Option.get _ h).population.all (fun g => decide (g ≠ [65, 66]))) = true := by
    with_unfolding_all rfl
  have hni : globalsAB.input ∉ (Option.get _ h).population := fun hmem => by
    have := List.all_eq_true.mp hall _ hmem
    simp [globalsAB] at this
  ⟨Exists.elim (pass_continues globalsAB (insertionSorter globalsAB) _
      (Reachable.start drawsA _ hs) hni).2.2 fun t ht =>
    Exists.elim
      (per_byte_reproduction_rule [65, 66] 0 globalsAB (insertionSorter globalsAB) _ t rfl
        (Reachable.start drawsA _ hs) ht)
      fun best hb => ⟨_, t, best, hs, ht, hb.1, hb.2.1, hb.2.2.1,
        fun j hj => Exists.elim (hb.2.2.2 j hj) fun p2 hp2 =>
          Exists.elim hp2 fun ch hch => ⟨p2, ch, hch.1, hch.2.1, hch.2.2.1, hch.2.2.2.1,
            fun k hk => (hch.2.2.2.2 k hk).2.2⟩⟩,
    by with_unfolding_all rfl, by with_unfolding_all rfl, by with_unfolding_all rfl⟩

/-! ## score and matches agree (C20) -/

/-- A `range` loop visits no index twice. -/
theorem rangeFrom_nodup : ∀ (s : List Nat) (skip k : Nat), (rangeFrom skip k s).Nodup
  | [], _, _ => by simp [rangeFrom]
  | b :: rest, 0, k => by
    simp only [rangeFrom, List.nodup_cons]
    refine ⟨fun h => ?_, rangeFrom_nodup rest _ (k + 1)⟩
    have := rangeFrom_bound rest _ (k + 1) k h
    omega
  | b :: rest, skip + 1, k => by
    simp only [rangeFrom]
    exact rangeFrom_nodup rest skip (k + 1)

theorem rangeIndices_nodup (s : List Nat) : (rangeIndices s).Nodup :=
  rangeFrom_nodup s 0 0

/-- The loop of `matches` adds to the buffer one `'|'` for each visited position at
which the two strings agree, when no visited position holds a `'|'` beforehand. -/
theorem matchesLoop_count (input g : List Nat) (hlen : g.length = input.length) :
    ∀ (is : List Nat) (b : List Nat), is.Nodup → (∀ i ∈ is, i < g.length) →
      (∀ i ∈ is, i < b.length) → (∀ k ∈ is, b[k]? ≠ some 124) →
      ∃ b', matchesLoop input g is b = some b' ∧
        b'.countP (fun x => decide (x = 124))
          = b.countP (fun x => decide (x = 124))
            + is.countP (fun k => decide (g[k]? = input[k]?))
  | [], b, _, _, _, _ => ⟨b, by simp [matchesLoop]⟩
  | i :: is, b, hnd, hg, hb, hfree => by
    have hi : i < g.length := hg i (List.mem_cons_self _ _)
    have hi2 : i < input.length := hlen ▸ hi
    have hib : i < b.length := hb i (List.mem_cons_self _ _)
    obtain ⟨hni, hnd2⟩ := List.nodup_cons.mp hnd
    have hfree2 : ∀ k ∈ is, (b.set i (if g[i] = input[i] then 124 else 32))[k]? ≠ some 124 := by
      intro k hk
      have hki : ¬ i = k := fun e => hni (e ▸ hk)
      rw [List.getElem?_set, if_neg hki]
      exact hfree k (List.mem_cons_of_mem _ hk)
    obtain ⟨b', h1, h2⟩ := matchesLoop_count input g hlen is
      (b.set i (if g[i] = input[i] then 124 else 32)) hnd2
      (fun x hx => hg x (List.mem_cons_of_mem _ hx))
      (fun x hx => by rw [List.length_set]; exact hb x (List.mem_cons_of_mem _ hx)) hfree2
    refine ⟨b', ?_, ?_⟩
    · simp only [matchesLoop, List.getElem?_eq_getElem hi, List.getElem?_eq_getElem hi2]
      exact h1
    · have hbi : b[i] ≠ 124 := by
        intro e
        apply hfree i (List.mem_cons_self _ _)
        rw [List.getElem?_eq_getElem hib, e]
      rw [h2, List.countP_set _ _ _ _ hib, List.countP_cons]
      simp only [List.getElem?_eq_getElem hi, List.getElem?_eq_getElem hi2,
        Option.some.injEq, decide_eq_true_eq, hbi, if_false]
      by_cases e : g[i] = input[i]
      · simp [e]
        omega
      · simp [e]

/-- The counter of `score` is the number of `'|'` in the result of `matches`. -/
theorem score_matches_count (G : Globals) (g : genotype) (hlen : g.length = G.input.length) :
    ∃ f b, scoreLoop G.input g (rangeIndices g) 0 = some f ∧
      score G g = some ((f : ℚ) / G.inputLen) ∧ matchesOf G g = some b ∧
      b.length = g.length ∧ f = b.countP (fun x => decide (x = 124)) := by
  have hlt : ∀ i ∈ rangeIndices g, i < g.length := fun i hi => rangeIndices_lt g i hi
  obtain ⟨b, hb, hcount⟩ := matchesLoop_count G.input g hlen (rangeIndices g)
    (List.replicate g.length 0) (rangeIndices_nodup g) hlt
    (fun i hi => by simpa using hlt i hi)
    (fun k hk => by
      rw [List.getElem?_eq_getElem (by simpa using hlt k hk)]
      simp)
  obtain ⟨b2, hb2, hl2, _⟩ := matchesOf_spec G g hlen
  have hf := scoreLoop_eq G.input g hlen (rangeIndices g) 0 hlt
  have hbb : b2 = b := by
    have e : matchesOf G g = some b := hb
    rw [hb2] at e
    exact Option.some.inj e
  subst hbb
  refine ⟨_, b2, hf, ?_, hb2, hl2, ?_⟩
  · unfold score
    rw [hf]
    rfl
  · rw [hcount]
    simp

/-! ## The rounding of `float64`: lemmas -/

theorem roundHalfEven_ge (a b : Nat) : a / b ≤ roundHalfEven a b := by
  unfold roundHalfEven
  split
  · exact le_refl _
  · split
    · omega
    · split <;> omega

theorem roundHalfEven_le (a b : Nat) : roundHalfEven a b ≤ a / b + 1 := by
  unfold roundHalfEven
  split
  · omega
  · split
    · omega
    · split <;> omega

theorem log2_mono {a b : Nat} (ha : a ≠ 0) (hab : a ≤ b) : a.log2 ≤ b.log2 := by
  have hb : b ≠ 0 := by omega
  rw [Nat.le_log2 hb]
  exact le_trans (Nat.log2_self_le ha) hab

theorem binaryExponent_neg {a b : Nat} (ha : 0 < a) (hab : a < b) :
    binaryExponent a b ≤ -1 := by
  have hmono := log2_mono (by omega : a ≠ 0) (le_of_lt hab)
  unfold binaryExponent
  split
  · rename_i hc
    have hlt : a.log2 < b.log2 := by
      rcases Nat.lt_or_ge a.log2 b.log2 with h | h
      · exact h
      · have e : a.log2 = b.log2 := le_antisymm hmono h
        rw [e] at hc
        have := Nat.le_of_mul_le_mul_right hc (by positivity)
        omega
    omega
  · omega

theorem roundPos_unit {a b : Nat} (ha : 0 < a) (hab : a < b) (hb : b < 2 ^ 53) :
    0 < roundPos a b ∧ roundPos a b < 1 := by
  have he := binaryExponent_neg ha hab
  have hk : (0 : Int) ≤ 52 - binaryExponent a b := by omega
  obtain ⟨K, hK⟩ : ∃ K : Nat, (52 - binaryExponent a b).toNat = K := ⟨_, rfl⟩
  have hK53 : 53 ≤ K := by omega
  have hpow : 2 ^ 53 ≤ 2 ^ K := Nat.pow_le_pow_right (by decide) hK53
  have hposK : 0 < 2 ^ K := by positivity
  simp only [roundPos, if_pos hk, hK]
  have hqpos : (0 : ℚ) < ((2 ^ K : Nat) : ℚ) := by exact_mod_cast hposK
  have hlow : 1 ≤ roundHalfEven (a * 2 ^ K) b := by
    have h1 : 1 ≤ a * 2 ^ K / b := by
      rw [Nat.one_le_div_iff (by omega)]
      calc b ≤ 2 ^ K := by omega
        _ ≤ a * 2 ^ K := Nat.le_mul_of_pos_left _ ha
    exact le_trans h1 (roundHalfEven_ge _ _)
  have hhigh : roundHalfEven (a * 2 ^ K) b < 2 ^ K := by
    have h2 : a * 2 ^ K / b + 1 < 2 ^ K := by
      have h3 : a * 2 ^ K < b * (2 ^ K - 1) := by
        have h4 : a * 2 ^ K ≤ (b - 1) * 2 ^ K := Nat.mul_le_mul_right _ (by omega)
        have h5 : (b - 1) * 2 ^ K + b < b * 2 ^ K := by
          have : (b - 1) * 2 ^ K + 2 ^ K = b * 2 ^ K := by
            rw [← Nat.succ_mul]
            congr 1
            omega
          omega
        have h6 : b * (2 ^ K - 1) + b = b * 2 ^ K := by
          rw [← Nat.mul_succ]
          congr 1
          omega
        omega
      have h7 : a * 2 ^ K / b < 2 ^ K - 1 := (Nat.div_lt_iff_lt_mul (by omega)).mpr (by
        rw [Nat.mul_comm (2 ^ K - 1) b]; exact h3)
      omega
    exact lt_of_le_of_lt (roundHalfEven_le _ _) h2
  constructor
  · apply div_pos _ hqpos
    exact_mod_cast hlow
  · rw [div_lt_one hqpos]
    exact_mod_cast hhigh

theorem roundFloat64_unit (x : ℚ) (h0 : 0 < x) (h1 : x < 1) (hden : x.den < 2 ^ 53) :
    0 < roundFloat64 x ∧ roundFloat64 x < 1 := by
  have hne : x ≠ 0 := ne_of_gt h0
  have hnum : 0 < x.num := Rat.num_pos.mpr h0
  have hlt : x.num < x.den := Rat.lt_one_iff_num_lt_denom.mp h1
  simp only [roundFloat64, if_neg hne, if_pos h0]
  exact roundPos_unit (by omega) (by omega) hden

theorem roundFloat64_zero : roundFloat64 0 = 0 := by simp [roundFloat64]

theorem roundFloat64_one : roundFloat64 1 = 1 := by with_unfolding_all rfl

/-- The constant of the crossover test is the `float64` nearest to 2/10. -/
theorem roundFloat64_crossoverThreshold : roundFloat64 (2 / 10) = crossoverThreshold := by
  with_unfolding_all rfl

theorem natCast_div_den_le (f n : Nat) (hn : 0 < n) : ((f : ℚ) / (n : ℚ)).den ≤ n := by
  have h := Rat.den_dvd (f : ℤ) (n : ℤ)
  rw [Rat.divInt_eq_div] at h
  push_cast at h
  exact Nat.le_of_dvd hn (Int.natCast_dvd_natCast.mp h)

/-- For a target shorter than `2 ^ 53` bytes the rounded score is 1 exactly when the
quotient is 1, and 0 exactly when the quotient is 0. -/
theorem scoreFloat64_extremes (G : Globals) (g : genotype)
    (hlen : g.length = G.input.length) (hlenQ : G.inputLen = (G.input.length : ℚ))
    (hpos : 0 < G.input.length) (hsmall : G.input.length < 2 ^ 53) :
    (scoreFloat64 G g = some 1 ↔ score G g = some 1) ∧
      (scoreFloat64 G g = some 0 ↔ score G g = some 0) := by
  obtain ⟨q, hq, h0, h1⟩ := score_bounds G g hlen hlenQ hpos
  have hden : q.den < 2 ^ 53 := by
    have e := score_eq G g hlen
    rw [hq, hlenQ] at e
    rw [Option.some.inj e]
    exact lt_of_le_of_lt (natCast_div_den_le _ _ hpos) hsmall
  simp only [scoreFloat64, hq, Option.map_some', Option.some.injEq]
  rcases eq_or_lt_of_le h0 with e0 | hpos0
  · subst e0
    rw [roundFloat64_zero]
    exact ⟨Iff.rfl, Iff.rfl⟩
  · rcases eq_or_lt_of_le h1 with e1 | hlt1
    · subst e1
      rw [roundFloat64_one]
      exact ⟨Iff.rfl, Iff.rfl⟩
    · obtain ⟨ha, hb⟩ := roundFloat64_unit q hpos0 hlt1 hden
      exact ⟨⟨fun h => absurd h (ne_of_lt hb), fun h => absurd h (ne_of_lt hlt1)⟩,
        ⟨fun h => absurd h (ne_of_gt ha), fun h => absurd h (ne_of_gt hpos0)⟩⟩

theorem log2_eq_of_bounds {n k : Nat} (h1 : 2 ^ k ≤ n) (h2 : n < 2 ^ (k + 1)) :
    n.log2 = k := by
  have hn : n ≠ 0 := by
    have : 0 < 2 ^ k := by positivity
    omega
  apply le_antisymm
  · exact Nat.lt_succ_iff.mp ((Nat.log2_lt hn).mpr h2)
  · exact (Nat.le_log2 hn).mpr h1

/-- The `float64` product of the double nearest to 1/49 by 49 is `1 - 2 ^ (-53)`. -/
theorem roundFloat64_product_49 :
    roundFloat64 ((5882252574524729 / 288230376151711744 : ℚ) * 49)
      = 9007199254740991 / 9007199254740992 := by
  have e : (5882252574524729 / 288230376151711744 : ℚ) * 49
      = 288230376151711721 / 288230376151711744 := by norm_num
  have hnum : (288230376151711721 / 288230376151711744 : ℚ).num.toNat
      = 288230376151711721 := by with_unfolding_all rfl
  have hden : (288230376151711721 / 288230376151711744 : ℚ).den
      = 288230376151711744 := by with_unfolding_all rfl
  have hl1 : Nat.log2 288230376151711721 = 57 :=
    log2_eq_of_bounds (by norm_num) (by norm_num)
  have hl2 : Nat.log2 288230376151711744 = 58 :=
    log2_eq_of_bounds (by norm_num) (by norm_num)
  have hbe : binaryExponent 288230376151711721 288230376151711744 = -1 := by
    unfold binaryExponent
    rw [hl1, hl2]
    norm_num
  have hne : (288230376151711721 / 288230376151711744 : ℚ) ≠ 0 := by norm_num
  have hpos : (0 : ℚ) < 288230376151711721 / 288230376151711744 := by norm_num
  rw [e]
  have ht : Int.toNat 53 = 53 := rfl
  simp only [roundFloat64, if_neg hne, if_pos hpos, hnum, hden, roundPos, hbe]
  norm_num [roundHalfEven, ht]

/-- C20, as stated, fails: for a target of 49 bytes and a genotype of 49 bytes that
agrees with it at one position, `matches` holds one `'|'`, while the `float64` score is
the double nearest to 1/49, whose product with 49 is not 1, either exactly or rounded
to a `float64` (it is `1 - 2 ^ (-53)`). -/
theorem score_times_length_counterexample :
    init (List.replicate 49 65) 0 = Except.ok globals49 ∧
      oneMatch49.length = globals49.input.length ∧
      matchesOf globals49 oneMatch49 = some (124 :: List.replicate 48 32) ∧
      (124 :: List.replicate 48 32).countP (fun x => decide (x = 124)) = 1 ∧
      score globals49 oneMatch49 = some (1 / 49) ∧
      scoreFloat64 globals49 oneMatch49
        = some (5882252574524729 / 288230376151711744) ∧
      (5882252574524729 / 288230376151711744 : ℚ) * 49 ≠ 1 ∧
      roundFloat64 ((5882252574524729 / 288230376151711744 : ℚ) * 49)
        = 9007199254740991 / 9007199254740992 ∧
      (9007199254740991 / 9007199254740992 : ℚ) ≠ 1 := by
  refine ⟨?_, ?_, ?_, ?_, ?_, ?_, ?_, ?_, ?_⟩
  · with_unfolding_all rfl
  · with_unfolding_all rfl
  · with_unfolding_all rfl
  · with_unfolding_all rfl
  · with_unfolding_all rfl
  · with_unfolding_all rfl
  · norm_num
  · exact roundFloat64_product_49
  · norm_num

/-- C20, amended: for every non-empty target and every genotype `g` of the length of
the target, the match counter `f` of `score(g)`, whose quotient by the length of the
target is the score (exactly, and rounded for the `float64` returned), equals the
number of `'|'` in `matches(g)`, so the exact quotient multiplied by the length gives
that number back; the quotient is 1 exactly when `matches(g)` consists only of `'|'`,
and for a target shorter than `2 ^ 53` bytes so is the `float64` score. -/
theorem score_counts_bars_of_matches (i : List Nat) (m : ℚ) (G : Globals) (g : genotype)
    (hinit : init i m = Except.ok G) (hlen : g.length = i.length) :
    ∃ (f : Nat) (b : List Nat),
      score G g = some ((f : ℚ) / (i.length : ℚ)) ∧
      scoreFloat64 G g = some (roundFloat64 ((f : ℚ) / (i.length : ℚ))) ∧
      matchesOf G g = some b ∧ b.length = i.length ∧
      f = b.countP (fun x => decide (x = 124)) ∧
      (f : ℚ) / (i.length : ℚ) * (i.length : ℚ) = (f : ℚ) ∧
      (score G g = some 1 ↔ ∀ x ∈ b, x = 124) ∧
      (i.length < 2 ^ 53 → (scoreFloat64 G g = some 1 ↔ ∀ x ∈ b, x = 124)) := by
  obtain ⟨hpos, hin, hq, _⟩ := init_ok hinit
  subst hin
  obtain ⟨f, b, _, hscore, hb, hbl, hf⟩ := score_matches_count G g hlen
  rw [hq] at hscore
  have hqpos : (0 : ℚ) < (G.input.length : ℚ) := by exact_mod_cast hpos
  have hone : score G g = some 1 ↔ ∀ x ∈ b, x = 124 := by
    rw [hscore, Option.some.injEq, div_eq_one_iff_eq (ne_of_gt hqpos)]
    have hcount := List.countP_eq_length (p := fun x => decide (x = 124)) (l := b)
    constructor
    · intro h x hx
      have h2 : f = G.input.length := by exact_mod_cast h
      have h3 : b.countP (fun x => decide (x = 124)) = b.length := by
        rw [← hf, h2, hbl, hlen]
      simpa using hcount.mp h3 x hx
    · intro h
      have h3 : b.countP (fun x => decide (x = 124)) = b.length :=
        hcount.mpr (fun x hx => by simpa using h x hx)
      have h2 : f = G.input.length := by rw [hf, h3, hbl, hlen]
      exact_mod_cast h2
  refine ⟨f, b, hscore, ?_, hb, hbl.trans hlen, hf, ?_, hone, ?_⟩
  · simp only [scoreFloat64, hscore, Option.map_some']
  · field_simp
  · intro hsmall
    rw [(scoreFloat64_extremes G g hlen hq hpos hsmall).1]
    exact hone

/-- C20, amended, on the target `"AB"` and the genotype `"AA"`: one position agrees,
`matches` is `"| "` and the score is 1/2. -/
theorem score_counts_bars_of_matches_witness :
    (∃ (f : Nat) (b : List Nat),
      score globalsAB [65, 65] = some ((f : ℚ) / (([65, 66] : List Nat).length : ℚ)) ∧
      matchesOf globalsAB [65, 65] = some b ∧
      f = b.countP (fun x => decide (x = 124))) ∧
    matchesOf globalsAB [65, 65] = some [124, 32] ∧
    scoreFloat64 globalsAB [65, 65] = some (1 / 2) :=
  ⟨Exists.elim (score_counts_bars_of_matches [65, 66] 0 globalsAB [65, 65] rfl rfl)
      fun f hf => Exists.elim hf fun b hb => ⟨f, b, hb.1, hb.2.2.1, hb.2.2.2.2.1⟩,
    by with_unfolding_all rfl, by with_unfolding_all rfl⟩

/-! ## score and matches on the genotypes of a run (C2, C3, C4) -/

/-- A genotype of the data model (the length of the target, bytes in [32,122]) and
every genotype of every population of a run is a good genotype. -/
theorem held_genotype_good (G : Globals) (g : genotype)
    (hg : (g.length = G.input.length ∧ ∀ b ∈ g, 32 ≤ b ∧ b ≤ 122) ∨
      ∃ (srt : Sorter G) (s : State), Reachable G srt s ∧ g ∈ s.population) :
    GoodGenotype G g := by
  rcases hg with h | ⟨srt, s, hs, hmem⟩
  · exact h
  · exact (reachable_good G srt s hs).2 g hmem

theorem roundPos_nonneg (a b : Nat) : 0 ≤ roundPos a b := by
  unfold roundPos
  simp only
  split <;> positivity

theorem roundPos_le_one {a b : Nat} (ha : 0 < a) (hab : a < b) : roundPos a b ≤ 1 := by
  have he := binaryExponent_neg ha hab
  have hk : (0 : Int) ≤ 52 - binaryExponent a b := by omega
  obtain ⟨K, hK⟩ : ∃ K : Nat, (52 - binaryExponent a b).toNat = K := ⟨_, rfl⟩
  have hposK : 0 < 2 ^ K := by positivity
  simp only [roundPos, if_pos hk, hK]
  have hqpos : (0 : ℚ) < ((2 ^ K : Nat) : ℚ) := by exact_mod_cast hposK
  have hhigh : roundHalfEven (a * 2 ^ K) b ≤ 2 ^ K := by
    have h7 : a * 2 ^ K / b < 2 ^ K := (Nat.div_lt_iff_lt_mul (by omega)).mpr (by
      exact Nat.mul_lt_mul_of_pos_right hab hposK |>.trans_le (by rw [Nat.mul_comm]))
    have := roundHalfEven_le (a * 2 ^ K) b
    omega
  rw [div_le_one hqpos]
  exact_mod_cast hhigh

/-- The `float64` nearest to a rational of [0,1] lies in [0,1]. -/
theorem roundFloat64_mem_unit (x : ℚ) (h0 : 0 ≤ x) (h1 : x ≤ 1) :
    0 ≤ roundFloat64 x ∧ roundFloat64 x ≤ 1 := by
  rcases eq_or_lt_of_le h0 with e0 | hpos
  · subst e0
    rw [roundFloat64_zero]
    exact ⟨le_refl _, zero_le_one⟩
  · rcases eq_or_lt_of_le h1 with e1 | hlt
    · subst e1
      rw [roundFloat64_one]
      exact ⟨zero_le_one, le_refl _⟩
    · have hne : x ≠ 0 := ne_of_gt hpos
      have hnum : 0 < x.num := Rat.num_pos.mpr hpos
      have hnd : x.num < x.den := Rat.lt_one_iff_num_lt_denom.mp hlt
      simp only [roundFloat64, if_neg hne, if_pos hpos]
      exact ⟨roundPos_nonneg _ _, roundPos_le_one (by omega) (by omega)⟩

/-- The integer given by `roundHalfEven` is within one half of the quotient. -/
theorem roundHalfEven_near (a b : Nat) (hb : 0 < b) :
    |((roundHalfEven a b : Nat) : ℚ) - (a : ℚ) / (b : ℚ)| ≤ 1 / 2 := by
  have hbq : (0 : ℚ) < (b : ℚ) := by exact_mod_cast hb
  have hdm : (a : ℚ) = (b : ℚ) * ((a / b : Nat) : ℚ) + ((a % b : Nat) : ℚ) := by
    exact_mod_cast (Nat.div_add_mod a b).symm
  have hq : (a : ℚ) / (b : ℚ) = ((a / b : Nat) : ℚ) + ((a % b : Nat) : ℚ) / (b : ℚ) := by
    rw [hdm]
    field_simp
    ring
  have hr0 : (0 : ℚ) ≤ ((a % b : Nat) : ℚ) / (b : ℚ) := by positivity
  rw [hq, abs_le]
  unfold roundHalfEven
  split
  · rename_i h
    have h2 : ((a % b : Nat) : ℚ) / (b : ℚ) < 1 / 2 := by
      rw [div_lt_iff₀ hbq]
      have : (2 : ℚ) * ((a % b : Nat) : ℚ) < (b : ℚ) := by exact_mod_cast h
      linarith
    constructor <;> linarith
  · rename_i h
    have h2 : 1 / 2 ≤ ((a % b : Nat) : ℚ) / (b : ℚ) := by
      rw [le_div_iff₀ hbq]
      have : (b : ℚ) ≤ (2 : ℚ) * ((a % b : Nat) : ℚ) := by exact_mod_cast Nat.le_of_not_lt h
      linarith
    have h3 : ((a % b : Nat) : ℚ) / (b : ℚ) < 1 := by
      rw [div_lt_one hbq]
      exact_mod_cast Nat.mod_lt a hb
    split
    · push_cast
      constructor <;> linarith
    · rename_i h4
      have h5 : ((a % b : Nat) : ℚ) / (b : ℚ) = 1 / 2 := by
        have e : 2 * (a % b) = b := by omega
        have e2 : (2 : ℚ) * ((a % b : Nat) : ℚ) = (b : ℚ) := by exact_mod_cast e
        rw [div_eq_iff (ne_of_gt hbq)]
        linarith
      split
      · constructor <;> linarith
      · push_cast
        constructor <;> linarith

/-- Rounding a quotient below 1 to 53 significant bits moves it by at most
`2 ^ (-54)`. -/
theorem roundPos_near {a b : Nat} (ha : 0 < a) (hab : a < b) :
    |roundPos a b - (a : ℚ) / (b : ℚ)| ≤ 1 / 2 ^ 54 := by
  have he := binaryExponent_neg ha hab
  have hk : (0 : Int) ≤ 52 - binaryExponent a b := by omega
  obtain ⟨K, hK⟩ : ∃ K : Nat, (52 - binaryExponent a b).toNat = K := ⟨_, rfl⟩
  have hK53 : 53 ≤ K := by omega
  have hb : 0 < b := by omega
  have hden : (0 : ℚ) < (b : ℚ) := by exact_mod_cast hb
  have hnear := roundHalfEven_near (a * 2 ^ K) b hb
  have hpowq : (0 : ℚ) < (2 : ℚ) ^ K := by positivity
  have hpow54 : (2 : ℚ) ^ 54 ≤ 2 * (2 : ℚ) ^ K := by
    have h53 : (2 : ℚ) ^ 53 ≤ (2 : ℚ) ^ K := pow_le_pow_right₀ (by norm_num) hK53
    have e54 : (2 : ℚ) ^ 54 = 2 * 2 ^ 53 := by norm_num
    linarith
  simp only [roundPos, if_pos hk, hK]
  have hsplit : ((roundHalfEven (a * 2 ^ K) b : Nat) : ℚ) / ((2 ^ K : Nat) : ℚ)
        - (a : ℚ) / (b : ℚ)
      = (((roundHalfEven (a * 2 ^ K) b : Nat) : ℚ)
          - ((a * 2 ^ K : Nat) : ℚ) / (b : ℚ)) / (2 : ℚ) ^ K := by
    push_cast
    field_simp
    ring
  rw [hsplit, abs_div, abs_of_pos hpowq, div_le_div_iff₀ hpowq (by positivity)]
  calc |((roundHalfEven (a * 2 ^ K) b : Nat) : ℚ) - ((a * 2 ^ K : Nat) : ℚ) / (b : ℚ)| * 2 ^ 54
      ≤ 1 / 2 * 2 ^ 54 := mul_le_mul_of_nonneg_right hnear (by positivity)
    _ ≤ 1 * 2 ^ K := by linarith

/-- Rounding a rational of [0,1] to a `float64` moves it by at most `2 ^ (-54)`. -/
theorem roundFloat64_near (x : ℚ) (h0 : 0 ≤ x) (h1 : x ≤ 1) :
    |roundFloat64 x - x| ≤ 1 / 2 ^ 54 := by
  rcases eq_or_lt_of_le h0 with e0 | hpos
  · subst e0
    rw [roundFloat64_zero]
    norm_num
  · rcases eq_or_lt_of_le h1 with e1 | hlt
    · subst e1
      rw [roundFloat64_one]
      norm_num
    · have hne : x ≠ 0 := ne_of_gt hpos
      have hnum : 0 < x.num := Rat.num_pos.mpr hpos
      have hnd : x.num < x.den := Rat.lt_one_iff_num_lt_denom.mp hlt
      have e : ((x.num.toNat : Nat) : ℚ) = (x.num : ℚ) := by
        have h := Int.toNat_of_nonneg (le_of_lt hnum)
        exact_mod_cast congrArg (fun z : ℤ => (z : ℚ)) h
      have hx : (x.num.toNat : ℚ) / (x.den : ℚ) = x := by
        rw [e]
        exact Rat.num_div_den x
      have h := roundPos_near (a := x.num.toNat) (b := x.den) (by omega) (by omega)
      rw [hx] at h
      simp only [roundFloat64, if_neg hne, if_pos hpos]
      exact h

/-- C2: for every non-empty target and every genotype `g` of the length of the target,
be it any genotype of the data model (bytes in [32,122]) or any member of a population
of a run, `score(g)` is 1.0 exactly when `g` equals the target byte for byte, and 0.0
exactly when `g[k] != target[k]` at every position `k`.  This holds of the exact
quotient and, for a target shorter than `2 ^ 53` bytes, of the `float64` returned. -/
theorem score_extremes_on_genotypes (i : List Nat) (m : ℚ) (G : Globals) (g : genotype)
    (hinit : init i m = Except.ok G)
    (hg : (g.length = i.length ∧ ∀ b ∈ g, 32 ≤ b ∧ b ≤ 122) ∨
      ∃ (srt : Sorter G) (s : State), Reachable G srt s ∧ g ∈ s.population) :
    g.length = i.length ∧
    (∃ q, score G g = some q ∧ (q = 1 ↔ g = i) ∧
      (q = 0 ↔ ∀ k, k < i.length → g[k]? ≠ i[k]?)) ∧
    (i.length < 2 ^ 53 →
      ∃ q, scoreFloat64 G g = some q ∧ (q = 1 ↔ g = i) ∧
        (q = 0 ↔ ∀ k, k < i.length → g[k]? ≠ i[k]?)) := by
  obtain ⟨hpos, hin, hq, _⟩ := init_ok hinit
  subst hin
  have hgood := held_genotype_good G g hg
  obtain ⟨q, hs, h1, h0⟩ := score_extremes G g hgood.1 hq hpos hgood.ascii
  rw [hgood.1] at h0
  refine ⟨hgood.1, ⟨q, hs, h1, h0⟩, fun hsmall => ?_⟩
  obtain ⟨e1, e0⟩ := scoreFloat64_extremes G g hgood.1 hq hpos hsmall
  refine ⟨roundFloat64 q, by simp only [scoreFloat64, hs, Option.map_some'], ?_, ?_⟩
  · rw [← h1]
    simp only [scoreFloat64, hs, Option.map_some', Option.some.injEq] at e1
    exact e1
  · rw [← h0]
    simp only [scoreFloat64, hs, Option.map_some', Option.some.injEq] at e0
    exact e0

/-- C2 on the examples of the specification: target `"Z"` with the genotypes `"Z"`
(1.0) and `"A"` (0.0), target `"AB"` with the genotypes `"AA"` and `"BB"` (0.5); and on
the genotype `"'"` (byte 39) of the first population of the run on `"Z"` with the draws
`drawsA`. -/
theorem score_extremes_on_genotypes_witness :
    scoreFloat64 globalsZ [90] = some 1 ∧ scoreFloat64 globalsZ [65] = some 0 ∧
    scoreFloat64 globalsAB [65, 65] = some (1 / 2) ∧
    scoreFloat64 globalsAB [66, 66] = some (1 / 2) ∧
    (([90] : List Nat).length < 2 ^ 53 →
      ∃ q, scoreFloat64 globalsZ [90] = some q ∧ (q = 1 ↔ ([90] : genotype) = [90]) ∧
        (q = 0 ↔ ∀ k, k < ([90] : List Nat).length →
          ([90] : genotype)[k]? ≠ ([90] : List Nat)[k]?)) ∧
    (([65, 66] : List Nat).length < 2 ^ 53 →
      ∃ q, scoreFloat64 globalsAB [66, 66] = some q ∧
        (q = 1 ↔ ([66, 66] : genotype) = [65, 66]) ∧
        (q = 0 ↔ ∀ k, k < ([65, 66] : List Nat).length →
          ([66, 66] : genotype)[k]? ≠ ([65, 66] : List Nat)[k]?)) ∧
    (∃ s, mainStart globalsZ drawsA = some s ∧ [39] ∈ s.population ∧
      ∃ q, score globalsZ [39] = some q ∧ (q = 1 ↔ ([39] : genotype) = [90]) ∧
        (q = 0 ↔ ∀ k, k < ([90] : List Nat).length →
          ([39] : genotype)[k]? ≠ ([90] : List Nat)[k]?)) :=
  have h : (mainStart globalsZ drawsA).isSome = true := by with_unfolding_all rfl
  have hs := (Option.some_get h).symm
  have hmem : [39] ∈ (Option.get _ h).population :=
    List.getElem?_mem (by with_unfolding_all rfl : (Option.get _ h).population[1]? = some [39])
  ⟨by with_unfolding_all rfl, by with_unfolding_all rfl, by with_unfolding_all rfl,
    by with_unfolding_all rfl,
    (score_extremes_on_genotypes [90] 0 globalsZ [90] rfl (Or.inl ⟨rfl, by decide⟩)).2.2,
    (score_extremes_on_genotypes [65, 66] 0 globalsAB [66, 66] rfl
      (Or.inl ⟨rfl, by decide⟩)).2.2,
    _, hs, hmem,
    (score_extremes_on_genotypes [90] 0 globalsZ [39] rfl
      (Or.inr ⟨insertionSorter globalsZ, _, Reachable.start drawsA _ hs, hmem⟩)).2.1⟩

/-- C3: for every non-empty target and every genotype `g` of the length of the target,
be it any genotype of the data model (bytes in [32,122]) or any member of a population
of a run, `score(g)` is the number of positions `k` with `g[k] == target[k]` divided by
the length of the target: the `float64` returned is the `float64` quotient of the two
numbers (the double nearest to their exact quotient, at most `2 ^ (-54)` away from it),
and both the `float64` and the exact quotient lie in the closed interval [0,1]. -/
theorem score_is_fraction_of_matches (i : List Nat) (m : ℚ) (G : Globals) (g : genotype)
    (hinit : init i m = Except.ok G)
    (hg : (g.length = i.length ∧ ∀ b ∈ g, 32 ≤ b ∧ b ≤ 122) ∨
      ∃ (srt : Sorter G) (s : State), Reachable G srt s ∧ g ∈ s.population) :
    scoreFloat64 G g = some (roundFloat64
      ((((List.range i.length).countP (fun k => decide (g[k]? = i[k]?)) : Nat) : ℚ)
        / ((i.length : Nat) : ℚ))) ∧
    score G g = some
      ((((List.range i.length).countP (fun k => decide (g[k]? = i[k]?)) : Nat) : ℚ)
        / ((i.length : Nat) : ℚ)) ∧
    (∃ q, scoreFloat64 G g = some q ∧ 0 ≤ q ∧ q ≤ 1) ∧
    (∃ q, score G g = some q ∧ 0 ≤ q ∧ q ≤ 1) ∧
    (∃ q x, scoreFloat64 G g = some q ∧ score G g = some x ∧ |q - x| ≤ 1 / 2 ^ 54) := by
  obtain ⟨hpos, hin, hq, _⟩ := init_ok hinit
  subst hin
  have hgood := held_genotype_good G g hg
  have hs := score_ascii G g hgood.1 hgood.ascii
  rw [hq, hgood.1] at hs
  obtain ⟨x, hx, hx0, hx1⟩ := score_bounds G g hgood.1 hq hpos
  have hf : scoreFloat64 G g = some (roundFloat64 x) := by
    simp only [scoreFloat64, hx, Option.map_some']
  have hxe := hx.symm.trans hs
  refine ⟨?_, hs, ⟨_, hf, roundFloat64_mem_unit x hx0 hx1⟩, ⟨x, hx, hx0, hx1⟩,
    ⟨_, x, hf, hx, roundFloat64_near x hx0 hx1⟩⟩
  rw [hf, Option.some.inj hxe]

/-- C3 on the target `"AB"` and the genotype `"AA"` (one position of two agrees, the
score is 0.5), and on a target of 49 bytes and a genotype agreeing with it at one
position, whose score is the double nearest to 1/49. -/
theorem score_is_fraction_of_matches_witness :
    scoreFloat64 globalsAB [65, 65] = some (roundFloat64
      ((((List.range ([65, 66] : List Nat).length).countP
          (fun k => decide (([65, 65] : genotype)[k]? = ([65, 66] : List Nat)[k]?)) : Nat) : ℚ)
        / ((([65, 66] : List Nat).length : Nat) : ℚ))) ∧
    scoreFloat64 globalsAB [65, 65] = some (1 / 2) ∧
    (∃ q, scoreFloat64 globals49 oneMatch49 = some q ∧ 0 ≤ q ∧ q ≤ 1) ∧
    scoreFloat64 globals49 oneMatch49 = some (5882252574524729 / 288230376151711744) :=
  ⟨(score_is_fraction_of_matches [65, 66] 0 globalsAB [65, 65] rfl
      (Or.inl ⟨rfl, by decide⟩)).1,
    by with_unfolding_all rfl,
    (score_is_fraction_of_matches (List.replicate 49 65) 0 globals49 oneMatch49
      (by with_unfolding_all rfl) (Or.inl ⟨by with_unfolding_all rfl, by decide⟩)).2.2.1,
    by with_unfolding_all rfl⟩

/-- C4: for every genotype `g` of the length of the target, be it any genotype of the
data model (bytes in [32,122]) or any member of a population of a run, `matches(g)`
has the length of the target, `matches(g)[k]` is `'|'` (124) if `g[k] == target[k]` and
`' '` (32) otherwise at every position `k`, and no other character appears in the
result. -/
theorem matches_marks_every_position (i : List Nat) (m : ℚ) (G : Globals) (g : genotype)
    (hinit : init i m = Except.ok G)
    (hg : (g.length = i.length ∧ ∀ b ∈ g, 32 ≤ b ∧ b ≤ 122) ∨
      ∃ (srt : Sorter G) (s : State), Reachable G srt s ∧ g ∈ s.population) :
    ∃ b, matchesOf G g = some b ∧ b.length = i.length ∧
      (∀ k, k < i.length → b[k]? = some (if g[k]? = i[k]? then 124 else 32)) ∧
      ∀ x ∈ b, x = 124 ∨ x = 32 := by
  obtain ⟨_, hin, _, _⟩ := init_ok hinit
  subst hin
  have hgood := held_genotype_good G g hg
  obtain ⟨b, h1, h2, h3⟩ := matchesOf_spec G g hgood.1
  refine ⟨b, h1, h2.trans hgood.1, fun k hk => h3 hgood.ascii k (hgood.1 ▸ hk), ?_⟩
  intro x hx
  obtain ⟨k, hk, hkx⟩ := List.getElem_of_mem hx
  have h4 := h3 hgood.ascii k (h2 ▸ hk)
  rw [List.getElem?_eq_getElem hk, hkx] at h4
  injection h4 with h4
  rw [h4]
  split
  · exact Or.inl rfl
  · exact Or.inr rfl

/-- C4 on the target `"AB"` and the genotype `"AA"`, whose markers are `"| "`. -/
theorem matches_marks_every_position_witness :
    (∃ b, matchesOf globalsAB [65, 65] = some b ∧ b.length = ([65, 66] : List Nat).length ∧
      (∀ k, k < ([65, 66] : List Nat).length →
        b[k]? = some (if ([65, 65] : genotype)[k]? = ([65, 66] : List Nat)[k]?
          then 124 else 32)) ∧
      ∀ x ∈ b, x = 124 ∨ x = 32) ∧
    matchesOf globalsAB [65, 65] = some [124, 32] :=
  ⟨matches_marks_every_position [65, 66] 0 globalsAB [65, 65] rfl
      (Or.inl ⟨rfl, by decide⟩),
    by with_unfolding_all rfl⟩

end GenAlg
